import Mathlib

/-!
Verification development for the time-frequency decomposition library
(`TFMethods.py`): a shallow embedding of the `TimeFrequencyDecomposition`
and `PsychoacousticModel` classes over exact real/complex arithmetic,
together with proofs and refutations of the specified properties.

Conventions of the embedding:
* a numpy 1-D array is an `NArr`: an explicit length plus a total
  value function (indices past the length carry junk that no theorem
  depends on);
* a numpy 2-D array is an `RMat` (rows, cols, entries);
* `scipy.fftpack.fft` / `ifft` (and `np.fft.fft` / `np.fft.ifft`) are
  the exact discrete Fourier transform and its exact inverse;
* Python floats become real numbers; `**` between floats becomes `rpow`;
  Python 2 integer division becomes `Nat` division.
-/

open scoped Classical

namespace TFD

/-- Model of a numpy 1-D array: a length together with a total value
function. -/
structure NArr (α : Type) where
  len : ℕ
  val : ℕ → α

/-- Model of a numpy 2-D array. -/
structure RMat where
  rows : ℕ
  cols : ℕ
  val : ℕ → ℕ → ℝ

/-- Unit root power: `exp(2*pi*i*j/N)`, the building block of the DFT. -/
noncomputable def eN (N : ℕ) (j : ℤ) : ℂ :=
  Complex.exp (2 * Real.pi * Complex.I * j / N)

/-- Exact discrete Fourier transform of size `N`
(`scipy.fftpack.fft` / `np.fft.fft`): `X[k] = sum_n x[n] e^(-2 pi i k n / N)`. -/
noncomputable def fftv (N : ℕ) (x : ℕ → ℂ) : ℕ → ℂ :=
  fun k => ∑ n ∈ Finset.range N, x n * eN N (-((k : ℤ) * n))

/-- Exact inverse discrete Fourier transform of size `N`
(`scipy.fftpack.ifft` / `np.fft.ifft`):
`x[n] = (1/N) sum_k X[k] e^(2 pi i k n / N)`. -/
noncomputable def ifftv (N : ℕ) (X : ℕ → ℂ) : ℕ → ℂ :=
  fun n => (∑ k ∈ Finset.range N, X k * eN N ((k : ℤ) * n)) / N

theorem eN_add (N : ℕ) (j₁ j₂ : ℤ) : eN N (j₁ + j₂) = eN N j₁ * eN N j₂ := by
  unfold eN
  rw [← Complex.exp_add]
  congr 1
  push_cast
  ring

theorem eN_zero (N : ℕ) : eN N 0 = 1 := by
  simp [eN]

theorem eN_int_mul (N : ℕ) (c : ℤ) : eN N ((N : ℤ) * c) = 1 := by
  unfold eN
  rcases Nat.eq_zero_or_pos N with h0 | hpos
  · simp [h0]
  · have hN : (N : ℂ) ≠ 0 := Nat.cast_ne_zero.mpr (by omega)
    push_cast
    have : 2 * (Real.pi : ℂ) * Complex.I * ((N : ℂ) * (c : ℂ)) / N = (c : ℂ) * (2 * Real.pi * Complex.I) := by
      field_simp
      ring
    rw [this, Complex.exp_int_mul_two_pi_mul_I]

theorem eN_pow (N : ℕ) (j : ℤ) (k : ℕ) : eN N (j * k) = eN N j ^ k := by
  unfold eN
  rw [← Complex.exp_nat_mul]
  congr 1
  push_cast
  ring

theorem eN_mod_add (N : ℕ) (j : ℤ) (c : ℤ) : eN N (j + N * c) = eN N j := by
  rw [eN_add, eN_int_mul, mul_one]

/-- The absolute value of a unit root power is `1`. -/
theorem abs_eN (N : ℕ) (j : ℤ) : Complex.abs (eN N j) = 1 := by
  unfold eN
  rw [Complex.abs_exp]
  have : (2 * (Real.pi : ℂ) * Complex.I * j / N).re = 0 := by
    have : 2 * (Real.pi : ℂ) * Complex.I * j / N =
        ((2 * Real.pi * j / N : ℝ) : ℂ) * Complex.I := by
      push_cast
      ring
    rw [this, Complex.mul_I_re]
    simp
  rw [this, Real.exp_zero]

theorem eN_conj (N : ℕ) (j : ℤ) : (starRingEnd ℂ) (eN N j) = eN N (-j) := by
  unfold eN
  rw [← Complex.exp_conj]
  congr 1
  simp only [map_div₀, map_mul, map_ofNat, Complex.conj_I, Complex.conj_ofReal, map_natCast,
    map_intCast]
  push_cast
  ring

/-- A root of unity of nonzero exponent not divisible by `N` differs from 1. -/
theorem eN_ne_one (N : ℕ) (j : ℤ) (hN : 0 < N) (hj : ¬ ((N : ℤ) ∣ j)) : eN N j ≠ 1 := by
  intro h
  unfold eN at h
  rcases Complex.exp_eq_one_iff.mp h with ⟨z, hz⟩
  apply hj
  refine ⟨z, ?_⟩
  have hNC : (N : ℂ) ≠ 0 := Nat.cast_ne_zero.mpr (by omega)
  have hpi : (2 : ℂ) * Real.pi * Complex.I ≠ 0 := by
    simp [Complex.ext_iff, Real.pi_ne_zero, Complex.I_ne_zero]
  have key : ((j : ℂ)) = (z : ℂ) * N := by
    have h1 : 2 * (Real.pi : ℂ) * Complex.I * j = (z : ℂ) * (2 * Real.pi * Complex.I) * N := by
      have := hz
      field_simp at this
      linear_combination this
    have h2 : (2 * (Real.pi : ℂ) * Complex.I) * (j : ℂ) =
        (2 * (Real.pi : ℂ) * Complex.I) * ((z : ℂ) * N) := by
      linear_combination h1
    exact mul_left_cancel₀ hpi h2
  have key' : (j : ℂ) = (((N : ℤ) * z : ℤ) : ℂ) := by
    push_cast
    linear_combination key
  exact_mod_cast key'

/-- Geometric-sum orthogonality of the DFT kernel: summing `e^(2 pi i k d / N)`
over `k < N` gives `N` when `N ∣ d` fails to fail, and `0` otherwise. -/
theorem eN_orthogonality (N : ℕ) (d : ℤ) (hN : 0 < N) (hd : ¬ ((N : ℤ) ∣ d)) :
    ∑ k ∈ Finset.range N, eN N ((k : ℤ) * d) = 0 := by
  have hroot : eN N d ≠ 1 := eN_ne_one N d hN hd
  have hpow : ∀ k : ℕ, eN N ((k : ℤ) * d) = eN N d ^ k := by
    intro k
    rw [mul_comm, eN_pow]
  calc ∑ k ∈ Finset.range N, eN N ((k : ℤ) * d)
      = ∑ k ∈ Finset.range N, eN N d ^ k := Finset.sum_congr rfl (fun k _ => hpow k)
    _ = (eN N d ^ N - 1) / (eN N d - 1) := geom_sum_eq hroot N
    _ = 0 := by
        have hpowN : eN N d ^ N = 1 := by
          rw [← eN_pow, mul_comm]
          exact eN_int_mul N d
        rw [hpowN]
        simp

/-- Fourier inversion: the exact inverse DFT undoes the exact DFT on
indices below `N`. -/
theorem ifftv_fftv (N : ℕ) (x : ℕ → ℂ) (n : ℕ) (hN : 0 < N) (hn : n < N) :
    ifftv N (fftv N x) n = x n := by
  unfold ifftv fftv
  have step : ∀ k ∈ Finset.range N,
      (∑ m ∈ Finset.range N, x m * eN N (-((k : ℤ) * m))) * eN N ((k : ℤ) * n)
      = ∑ m ∈ Finset.range N, x m * eN N ((k : ℤ) * ((n : ℤ) - m)) := by
    intro k _
    rw [Finset.sum_mul]
    refine Finset.sum_congr rfl (fun m _ => ?_)
    rw [mul_assoc, ← eN_add]
    ring_nf
  rw [Finset.sum_congr rfl step, Finset.sum_comm]
  have inner : ∀ m ∈ Finset.range N,
      ∑ k ∈ Finset.range N, x m * eN N ((k : ℤ) * ((n : ℤ) - m))
      = x m * (if m = n then (N : ℂ) else 0) := by
    intro m hm
    rw [← Finset.mul_sum]
    congr 1
    by_cases hmn : m = n
    · subst hmn
      simp only [sub_self, mul_zero, eN_zero, if_pos rfl]
      simp
    · rw [if_neg hmn]
      apply eN_orthogonality N _ hN
      intro hdvd
      have hmN : m < N := Finset.mem_range.mp hm
      have : ((n : ℤ) - m) = 0 := by
        rcases hdvd with ⟨c, hc⟩
        have hb : -(N : ℤ) < (n : ℤ) - m := by omega
        have hb2 : (n : ℤ) - m < N := by omega
        have : c = 0 := by
          by_contra hc0
          rcases lt_or_gt_of_ne hc0 with hlt | hgt
          · have : (N : ℤ) * c ≤ -N := by nlinarith [Int.add_one_le_iff.mpr hlt]
            omega
          · have : (N : ℤ) ≤ N * c := by nlinarith [Int.add_one_le_iff.mpr hgt]
            omega
        simp [this] at hc
        omega
      omega
  rw [Finset.sum_congr rfl inner]
  have collapse : ∑ m ∈ Finset.range N, x m * (if m = n then (N : ℂ) else 0)
      = ∑ m ∈ Finset.range N, (if m = n then x m * (N : ℂ) else 0) := by
    refine Finset.sum_congr rfl (fun m _ => ?_)
    split <;> simp
  rw [collapse, Finset.sum_ite_eq' (Finset.range N) n (fun m => x m * (N : ℂ))]
  simp only [Finset.mem_range, hn, if_pos]
  have hNC : (N : ℂ) ≠ 0 := Nat.cast_ne_zero.mpr (by omega)
  rw [mul_div_assoc, div_self hNC, mul_one]

@[simp] theorem NArr_len_mk {α : Type} (n : ℕ) (f : ℕ → α) : (NArr.mk n f).len = n := rfl

@[simp] theorem NArr_val_mk {α : Type} (n : ℕ) (f : ℕ → α) : (NArr.mk n f).val = f := rfl

@[simp] theorem RMat_rows_mk (r c : ℕ) (f : ℕ → ℕ → ℝ) : (RMat.mk r c f).rows = r := rfl

@[simp] theorem RMat_cols_mk (r c : ℕ) (f : ℕ → ℕ → ℝ) : (RMat.mk r c f).cols = c := rfl

@[simp] theorem RMat_val_mk (r c : ℕ) (f : ℕ → ℕ → ℝ) : (RMat.mk r c f).val = f := rfl

/-- Polar recombination: `mag * exp(1j*phase)` recovers the complex value. -/
theorem magphase (z : ℂ) :
    ((Complex.abs z : ℝ) : ℂ) * Complex.exp (Complex.I * ((Complex.arg z : ℝ) : ℂ)) = z := by
  rw [mul_comm Complex.I _]
  exact Complex.abs_mul_exp_arg_mul_I z

/-- Polar recombination with negated phase yields the conjugate. -/
theorem magphase_conj (z : ℂ) :
    ((Complex.abs z : ℝ) : ℂ) * Complex.exp (-(Complex.I * ((Complex.arg z : ℝ) : ℂ)))
      = (starRingEnd ℂ) z := by
  have h := congrArg (starRingEnd ℂ) (Complex.abs_mul_exp_arg_mul_I z)
  rw [map_mul, Complex.conj_ofReal, ← Complex.exp_conj, map_mul, Complex.conj_ofReal,
    Complex.conj_I] at h
  have harg : -(Complex.I * ((Complex.arg z : ℝ) : ℂ)) = ((Complex.arg z : ℝ) : ℂ) * -Complex.I := by
    ring
  rw [harg]
  exact h

/-- The DFT of a real signal is Hermitian: bin `N-k` is the conjugate of
bin `k`. -/
theorem fftv_real_hermitian (N : ℕ) (r : ℕ → ℝ) (k : ℕ) (hk : k ≤ N) :
    fftv N (fun n => ((r n : ℝ) : ℂ)) (N - k)
      = (starRingEnd ℂ) (fftv N (fun n => ((r n : ℝ) : ℂ)) k) := by
  unfold fftv
  rw [map_sum]
  refine Finset.sum_congr rfl (fun n hn => ?_)
  rw [map_mul, Complex.conj_ofReal, eN_conj]
  congr 1
  have harg : -(((N - k : ℕ) : ℤ) * (n : ℤ)) = -(-((k : ℤ) * n)) + (N : ℤ) * (-(n : ℤ)) := by
    have hc : ((N - k : ℕ) : ℤ) = (N : ℤ) - k := by omega
    rw [hc]
    ring
  rw [harg, eN_mod_add]

/-- The zero-phase-windowed FFT input buffer assembled inside `DFT`
(the `fftbuffer` array of the source: `fftbuffer[:hw1] = winx[hw2:]`,
`fftbuffer[-hw2:] = winx[:hw2]`; the second numpy assignment wins on
overlap, hence it is tested first here). -/
def dftBuffer (x w : NArr ℝ) (N : ℕ) : ℕ → ℝ := fun n =>
  let hw1 := (w.len + 1) / 2
  let hw2 := w.len / 2
  let winx : ℕ → ℝ := fun i => x.val i * w.val i
  if N - hw2 ≤ n ∧ n < N then winx (n - (N - hw2))
  else if n < hw1 then winx (hw2 + n)
  else 0

/-- Model of `TimeFrequencyDecomposition.DFT`: zero-phase windowing of the
frame `x*w` into an `N`-point buffer, an `N`-point FFT, and the magnitude
and phase of the non-negative-frequency bins `0..N/2`. -/
noncomputable def DFT (x w : NArr ℝ) (N : ℕ) : NArr ℝ × NArr ℝ :=
  (⟨N / 2 + 1, fun k => Complex.abs (fftv N (fun n => ((dftBuffer x w N n : ℝ) : ℂ)) k)⟩,
   ⟨N / 2 + 1, fun k => Complex.arg (fftv N (fun n => ((dftBuffer x w N n : ℝ) : ℂ)) k)⟩)

/-- The two-sided spectrum rebuilt inside `iDFT` by Hermitian symmetry
(the `Y` array of the source: `Y[0:hlfN] = magX*exp(1j*phsX)`,
`Y[hlfN:] = magX[-2:0:-1]*exp(-1j*phsX[-2:0:-1])`, so entry `k ≥ hlfN`
reads index `N-k`). -/
noncomputable def idftSpectrum (magX phsX : NArr ℝ) : ℕ → ℂ := fun k =>
  let hlfN := magX.len
  let N := (hlfN - 1) * 2
  if k < hlfN then ((magX.val k : ℝ) : ℂ) * Complex.exp (Complex.I * ((phsX.val k : ℝ) : ℂ))
  else if k < N then
    ((magX.val (N - k) : ℝ) : ℂ) * Complex.exp (-(Complex.I * ((phsX.val (N - k) : ℝ) : ℂ)))
  else 0

/-- Model of `TimeFrequencyDecomposition.iDFT`: rebuild the two-sided
spectrum by Hermitian symmetry, inverse FFT, take the real part, undo the
zero-phase rearrangement (`y[:hw2] = fftbuffer[-hw2:]`,
`y[hw2:] = fftbuffer[:hw1]`). -/
noncomputable def iDFT (magX phsX : NArr ℝ) (wsz : ℕ) : NArr ℝ :=
  let N := (magX.len - 1) * 2
  let hw2 := wsz / 2
  ⟨wsz, fun j =>
    if j < hw2 then (ifftv N (idftSpectrum magX phsX) (N - hw2 + j)).re
    else if j < wsz then (ifftv N (idftSpectrum magX phsX) (j - hw2)).re
    else 0⟩

/-- Core reconstruction: feeding the magnitude/phase of a real buffer into
the Hermitian-symmetric inverse recovers the buffer exactly (even `N`). -/
theorem idft_spectrum_of_real (r : ℕ → ℝ) (N : ℕ) (hN : 0 < N) (hev : Even N) (n : ℕ)
    (hn : n < N) :
    (ifftv N (idftSpectrum
        ⟨N / 2 + 1, fun k => Complex.abs (fftv N (fun i => ((r i : ℝ) : ℂ)) k)⟩
        ⟨N / 2 + 1, fun k => Complex.arg (fftv N (fun i => ((r i : ℝ) : ℂ)) k)⟩) n).re = r n := by
  obtain ⟨m, hm⟩ := hev
  have hsub : (N / 2 + 1 - 1) * 2 = N := by omega
  have hY : ∀ k, k < N → idftSpectrum
      ⟨N / 2 + 1, fun k => Complex.abs (fftv N (fun i => ((r i : ℝ) : ℂ)) k)⟩
      ⟨N / 2 + 1, fun k => Complex.arg (fftv N (fun i => ((r i : ℝ) : ℂ)) k)⟩ k
      = fftv N (fun i => ((r i : ℝ) : ℂ)) k := by
    intro k hk
    simp only [idftSpectrum, NArr_len_mk, NArr_val_mk, hsub]
    by_cases hk1 : k < N / 2 + 1
    · rw [if_pos hk1]
      exact magphase _
    · rw [if_neg hk1, if_pos hk, magphase_conj]
      have hh := fftv_real_hermitian N r (N - k) (by omega)
      have hidx : N - (N - k) = k := by omega
      rw [hidx] at hh
      exact hh.symm
  have hstep : ifftv N (idftSpectrum
      ⟨N / 2 + 1, fun k => Complex.abs (fftv N (fun i => ((r i : ℝ) : ℂ)) k)⟩
      ⟨N / 2 + 1, fun k => Complex.arg (fftv N (fun i => ((r i : ℝ) : ℂ)) k)⟩) n
      = ifftv N (fftv N (fun i => ((r i : ℝ) : ℂ))) n := by
    unfold ifftv
    congr 1
    refine Finset.sum_congr rfl (fun k hk => ?_)
    rw [hY k (Finset.mem_range.mp hk)]
  rw [hstep, ifftv_fftv N _ n hN hn]
  exact Complex.ofReal_re (r n)

/-- Round-trip core: `iDFT(DFT(x,w,N), wsz)` reproduces the windowed
frame `x*w` for any window and any even FFT size `N ≥ wsz` (no
non-degeneracy of `w` is needed). -/
theorem dft_idft_core (x w : NArr ℝ) (N : ℕ) (hev : Even N) (hwN : w.len ≤ N) :
    ∀ j, j < w.len → (iDFT (DFT x w N).1 (DFT x w N).2 w.len).val j = x.val j * w.val j := by
  intro j hj
  obtain ⟨m, hm⟩ := hev
  have hN0 : 0 < N := by omega
  have hsub : (N / 2 + 1 - 1) * 2 = N := by omega
  simp only [DFT, iDFT, NArr_len_mk, NArr_val_mk, hsub]
  by_cases hj2 : j < w.len / 2
  · rw [if_pos hj2]
    have hr := idft_spectrum_of_real (dftBuffer x w N) N hN0 ⟨m, hm⟩
      (N - w.len / 2 + j) (by omega)
    rw [hr]
    simp only [dftBuffer]
    rw [if_pos (by omega : N - w.len / 2 ≤ N - w.len / 2 + j ∧ N - w.len / 2 + j < N)]
    have : N - w.len / 2 + j - (N - w.len / 2) = j := by omega
    rw [this]
  · rw [if_neg hj2, if_pos hj]
    have hhw1 : j - w.len / 2 < (w.len + 1) / 2 := by omega
    have hr := idft_spectrum_of_real (dftBuffer x w N) N hN0 ⟨m, hm⟩
      (j - w.len / 2) (by omega)
    rw [hr]
    simp only [dftBuffer]
    rw [if_neg (by omega : ¬(N - w.len / 2 ≤ j - w.len / 2 ∧ j - w.len / 2 < N)),
      if_pos hhw1]
    have : w.len / 2 + (j - w.len / 2) = j := by omega
    rw [this]

/-- C1. For every real frame `x` and window `w` of the same length `wsz`,
and every even FFT size `N ≥ wsz` with `w` summing to nonzero energy,
`iDFT(DFT(x, w, N), wsz)` reconstructs the windowed frame `x*w` exactly
(the Hermitian-symmetry rounding is exact in real arithmetic). -/
theorem dft_idft_reconstruction (x w : NArr ℝ) (N : ℕ)
    (hlen : x.len = w.len) (hev : Even N) (hwN : w.len ≤ N)
    (hsum : (∑ j ∈ Finset.range w.len, w.val j) ≠ 0) :
    ∀ j, j < w.len → (iDFT (DFT x w N).1 (DFT x w N).2 w.len).val j = x.val j * w.val j :=
  dft_idft_core x w N hev hwN

/-- Concrete all-ones length-2 frame used to witness C1. -/
def onesArr2 : NArr ℝ := ⟨2, fun _ => 1⟩

/-- Witness for C1 at `x = w = [1,1]`, `N = 2`, `j = 0`. -/
theorem dft_idft_reconstruction_check :
    (onesArr2.len = onesArr2.len ∧ Even 2 ∧ onesArr2.len ≤ 2 ∧
      (∑ j ∈ Finset.range onesArr2.len, onesArr2.val j) ≠ 0 ∧ (0 : ℕ) < onesArr2.len) ∧
    (iDFT (DFT onesArr2 onesArr2 2).1 (DFT onesArr2 onesArr2 2).2 onesArr2.len).val 0
      = onesArr2.val 0 * onesArr2.val 0 :=
  ⟨⟨rfl, by decide, by simp [onesArr2], by norm_num [onesArr2, Finset.sum_range_succ],
      by simp [onesArr2]⟩,
    dft_idft_reconstruction onesArr2 onesArr2 2 rfl (by decide) (by simp [onesArr2])
      (by norm_num [onesArr2, Finset.sum_range_succ]) 0 (by simp [onesArr2])⟩

/-- Model of `scipy.signal.windows.hamming(M)` (symmetric):
`0.54 - 0.46*cos(2*pi*n/(M-1))`, with the scipy special case `[1.]` at
`M = 1`. -/
noncomputable def hammingw (M : ℕ) : ℕ → ℝ := fun n =>
  if M = 1 then 1 else 0.54 - 0.46 * Real.cos (2 * Real.pi * n / ((M : ℝ) - 1))

/-- Model of `scipy.signal.windows.cosine(M)`: `sin(pi*(n+0.5)/M)`. -/
noncomputable def cosineW (M : ℕ) : NArr ℝ :=
  ⟨M, fun n => Real.sin (Real.pi * ((n : ℝ) + 0.5) / M)⟩

/-- Every Hamming-window sample is strictly positive (minimum `0.08`). -/
theorem hammingw_pos (M n : ℕ) : 0 < hammingw M n := by
  unfold hammingw
  split
  · norm_num
  · nlinarith [Real.cos_le_one (2 * Real.pi * n / ((M : ℝ) - 1))]

/-- A Hamming window has strictly positive sum on any nonempty range. -/
theorem hammingw_sum_pos (M wsz : ℕ) (h : 0 < wsz) :
    0 < ∑ j ∈ Finset.range wsz, hammingw M j := by
  apply Finset.sum_pos (fun j _ => hammingw_pos M j)
  exact ⟨0, Finset.mem_range.mpr h⟩

/-- Zero padding by `3*hop` on both sides applied at the top of `STFT`
(`x = np.append(np.zeros(3*hop), x); x = np.append(x, np.zeros(3*hop))`). -/
def stftPad (x : NArr ℝ) (hop : ℕ) : NArr ℝ :=
  ⟨3 * hop + x.len + 3 * hop, fun t =>
    if t < 3 * hop then 0
    else if t < 3 * hop + x.len then x.val (t - 3 * hop)
    else 0⟩

/-- The in-place window normalisation performed by `STFT`
(`if np.sum(w) != 0.: w *= 1./np.sqrt(N)`).  The caller's window object
is mutated; the mutated array is both used by the analysis loop and left
behind for subsequent calls, so it is returned as part of the `STFT`
model. -/
noncomputable def stftW (w : NArr ℝ) (N : ℕ) : NArr ℝ :=
  if (∑ j ∈ Finset.range w.len, w.val j) ≠ 0 then
    ⟨w.len, fun j => w.val j * (1 / Real.sqrt N)⟩
  else w

/-- Model of `TimeFrequencyDecomposition.STFT`: pad, normalise the window
in place, then `DFT` each length-`wsz` frame advanced by `hop` while
`pin ≤ pend = len(x) - wsz`; rows of the preallocated `len(x)//hop`-row
matrices beyond the last analysed frame stay zero.  Returns the magnitude
matrix, the phase matrix, and the mutated window object. -/
noncomputable def STFT (x w : NArr ℝ) (N hop : ℕ) : RMat × RMat × NArr ℝ :=
  (⟨(stftPad x hop).len / hop, N / 2 + 1, fun p k =>
      if p * hop + w.len ≤ (stftPad x hop).len then
        ((DFT ⟨w.len, fun j => (stftPad x hop).val (p * hop + j)⟩ (stftW w N) N).1).val k
      else 0⟩,
   ⟨(stftPad x hop).len / hop, N / 2 + 1, fun p k =>
      if p * hop + w.len ≤ (stftPad x hop).len then
        ((DFT ⟨w.len, fun j => (stftPad x hop).val (p * hop + j)⟩ (stftW w N) N).2).val k
      else 0⟩,
   stftW w N)

/-- The base synthesis window `synw = hamming(wsz)/sqrt(N)` built inside
`TimeFrequencyDecomposition.GLA`; the full model of `GLA` divides it
elementwise by the accumulated envelope `GLAenv`. -/
noncomputable def GLAsynw (wsz : ℕ) (N : ℝ) : ℕ → ℝ := fun j =>
  hammingw wsz j / Real.sqrt N

/-- The summed-squared-window envelope `env` accumulated by the `GLA`
loop: `env[i] += synw[i - hop*k]^2` for `k = -(wsz//hop) .. wsz//hop`
whenever `0 <= i - hop*k < wsz`. -/
noncomputable def GLAenv (wsz hop : ℕ) (N : ℝ) : ℕ → ℝ := fun i =>
  ∑ k ∈ Finset.Icc (-((wsz / hop : ℕ) : ℤ)) ((wsz / hop : ℕ) : ℤ),
    if 0 ≤ (i : ℤ) - (hop : ℤ) * k ∧ (i : ℤ) - (hop : ℤ) * k < (wsz : ℤ) then
      GLAsynw wsz N (((i : ℤ) - (hop : ℤ) * k).toNat) ^ 2
    else 0

noncomputable def GLA (wsz hop : ℕ) (N : ℝ) : ℕ → ℝ :=
  fun j => GLAsynw wsz N j / GLAenv wsz hop N j

/-- The overlap-add buffer assembled by the main synthesis loop of `iSTFT`
(`y[pin:pin+wsz] += ybuffer*rs`), before edge-padding removal. -/
noncomputable def olaBuf (xmX xpX : RMat) (wsz hop : ℕ) (smt : Bool) : ℕ → ℝ :=
  let rs : ℕ → ℝ :=
    if smt then GLA wsz hop (((wsz : ℝ) - 1) * 2)
    else fun _ => Real.sqrt (2 * ((wsz : ℝ) - 1))
  fun t => ∑ p ∈ Finset.range xmX.rows,
    if p * hop ≤ t ∧ t < p * hop + wsz then
      (iDFT ⟨xmX.cols, xmX.val p⟩ ⟨xpX.cols, xpX.val p⟩ wsz).val (t - p * hop) * rs (t - p * hop)
    else 0

/-- Model of `TimeFrequencyDecomposition.iSTFT`: overlap-add of per-frame
`iDFT`s scaled by `rs` (the `GLA` synthesis window when `smt=True`, else
the constant `sqrt(2*(wsz-1))`) into a buffer of length
`numFr*hop + hw1 + hw2`, then `np.delete` of the first `3*hop` samples
and of the final `3*hop + 1` samples (`range(y.size-(3*hop+1), y.size)`). -/
noncomputable def iSTFT (xmX xpX : RMat) (wsz hop : ℕ) (smt : Bool) : NArr ℝ :=
  ⟨xmX.rows * hop + ((wsz + 1) / 2 + wsz / 2) - 3 * hop - (3 * hop + 1),
   fun i => olaBuf xmX xpX wsz hop smt (i + 3 * hop)⟩

@[simp] theorem stftPad_len (x : NArr ℝ) (hop : ℕ) :
    (stftPad x hop).len = 3 * hop + x.len + 3 * hop := rfl

/-- Normalising a scaled Hamming window: both branches of the in-place
update collapse to multiplication by `1/sqrt(N)` (when `c = 0` the window
is zero and the skipped branch yields the same array). -/
theorem stftW_scaled_hamming (c : ℝ) (wsz N : ℕ) (hwsz : 0 < wsz) :
    stftW ⟨wsz, fun n => c * hammingw wsz n⟩ N
      = ⟨wsz, fun n => c * hammingw wsz n * (1 / Real.sqrt N)⟩ := by
  unfold stftW
  by_cases hc : c = 0
  · subst hc
    rw [if_neg]
    · congr 1
      funext n
      ring
    · simp
  · rw [if_pos]
    simp only [NArr_len_mk, NArr_val_mk]
    rw [← Finset.mul_sum]
    exact mul_ne_zero hc (ne_of_gt (hammingw_sum_pos wsz wsz hwsz))

/-- The residue-class energy of the synthesis window is strictly
positive. -/
theorem residue_energy_pos (wsz hop : ℕ) (NR : ℝ) (hNR : 0 < NR) (hhop : 0 < hop)
    (hwh : hop ≤ wsz) (t : ℕ) :
    0 < ∑ j ∈ (Finset.range wsz).filter (fun j => j % hop = t % hop),
        GLAsynw wsz NR j ^ 2 := by
  apply Finset.sum_pos'
  · intro j _
    exact sq_nonneg _
  · refine ⟨t % hop, Finset.mem_filter.mpr ⟨Finset.mem_range.mpr
      (lt_of_lt_of_le (Nat.mod_lt t hhop) hwh), Nat.mod_mod_of_dvd t dvd_rfl⟩, ?_⟩
    have h1 : 0 < hammingw wsz (t % hop) := hammingw_pos wsz (t % hop)
    have h2 : 0 < Real.sqrt NR := Real.sqrt_pos.mpr hNR
    have h3 : 0 < GLAsynw wsz NR (t % hop) := div_pos h1 h2
    exact pow_pos h3 2

/-- For an in-window index, the `GLA` envelope equals the sum of the
squared synthesis-window samples over the hop-residue class of the
index (the `-(wsz//hop) .. wsz//hop` shift range covers every
overlapping copy). -/
theorem GLAenv_eq (wsz hop : ℕ) (NR : ℝ) (i : ℕ) (hhop : 0 < hop) (hi : i < wsz) :
    GLAenv wsz hop NR i
      = ∑ j ∈ (Finset.range wsz).filter (fun j => j % hop = i % hop),
          GLAsynw wsz NR j ^ 2 := by
  unfold GLAenv
  have hstep : ∑ k ∈ Finset.Icc (-((wsz / hop : ℕ) : ℤ)) ((wsz / hop : ℕ) : ℤ),
      (if 0 ≤ (i : ℤ) - (hop : ℤ) * k ∧ (i : ℤ) - (hop : ℤ) * k < (wsz : ℤ) then
        GLAsynw wsz NR (((i : ℤ) - (hop : ℤ) * k).toNat) ^ 2
      else 0)
      = ∑ k ∈ (Finset.Icc (-((wsz / hop : ℕ) : ℤ)) ((wsz / hop : ℕ) : ℤ)).filter
          (fun k => 0 ≤ (i : ℤ) - (hop : ℤ) * k ∧ (i : ℤ) - (hop : ℤ) * k < (wsz : ℤ)),
          GLAsynw wsz NR (((i : ℤ) - (hop : ℤ) * k).toNat) ^ 2 :=
    (Finset.sum_filter _ _).symm
  rw [hstep]
  have hdm := Nat.div_add_mod wsz hop
  have hml : wsz % hop < hop := Nat.mod_lt wsz hhop
  have hZdm : (hop : ℤ) * ((wsz / hop : ℕ) : ℤ) + ((wsz % hop : ℕ) : ℤ) = (wsz : ℤ) := by
    exact_mod_cast hdm
  have hZml : ((wsz % hop : ℕ) : ℤ) < (hop : ℤ) := by exact_mod_cast hml
  refine Finset.sum_bij' (fun k _ => ((i : ℤ) - (hop : ℤ) * k).toNat)
    (fun j _ => ((i : ℤ) - (j : ℤ)) / (hop : ℤ)) ?_ ?_ ?_ ?_ ?_
  · intro k hk
    obtain ⟨hIcc, hP⟩ := Finset.mem_filter.mp hk
    have hcast : ((((i : ℤ) - (hop : ℤ) * k).toNat : ℕ) : ℤ) = (i : ℤ) - (hop : ℤ) * k :=
      Int.toNat_of_nonneg hP.1
    refine Finset.mem_filter.mpr ⟨Finset.mem_range.mpr ?_, ?_⟩
    · exact_mod_cast hcast ▸ hP.2
    · have hdvd : (hop : ℤ) ∣ (i : ℤ) - ((((i : ℤ) - (hop : ℤ) * k).toNat : ℕ) : ℤ) := by
        rw [hcast]
        exact ⟨k, by ring⟩
      have hmeq : (((i : ℤ) - (hop : ℤ) * k).toNat : ℕ) ≡ i [MOD hop] :=
        Int.natCast_modEq_iff.mp (Int.modEq_iff_dvd.mpr hdvd)
      exact hmeq
  · intro j hj
    obtain ⟨hrange, hQ⟩ := Finset.mem_filter.mp hj
    have hjw : j < wsz := Finset.mem_range.mp hrange
    have hmeqZ : (j : ℤ) ≡ (i : ℤ) [ZMOD (hop : ℤ)] := Int.natCast_modEq_iff.mpr hQ
    have hdvd : (hop : ℤ) ∣ (i : ℤ) - (j : ℤ) := Int.ModEq.dvd hmeqZ
    have hmul : (hop : ℤ) * (((i : ℤ) - (j : ℤ)) / (hop : ℤ)) = (i : ℤ) - (j : ℤ) := by
      rw [mul_comm]
      exact Int.ediv_mul_cancel hdvd
    refine Finset.mem_filter.mpr ⟨Finset.mem_Icc.mpr ⟨?_, ?_⟩, ?_⟩
    · by_contra hcon
      push_neg at hcon
      have hle : ((i : ℤ) - (j : ℤ)) / (hop : ℤ) ≤ -((wsz / hop : ℕ) : ℤ) - 1 := by omega
      have : (hop : ℤ) * (((i : ℤ) - (j : ℤ)) / (hop : ℤ))
          ≤ (hop : ℤ) * (-((wsz / hop : ℕ) : ℤ) - 1) := by
        apply mul_le_mul_of_nonneg_left hle (by positivity)
      have hexp : (hop : ℤ) * (-((wsz / hop : ℕ) : ℤ) - 1)
          = -((hop : ℤ) * ((wsz / hop : ℕ) : ℤ)) - hop := by ring
      have hiZ : (i : ℤ) < (wsz : ℤ) := by exact_mod_cast hi
      have hjZ : (0 : ℤ) ≤ (j : ℤ) := by positivity
      linarith [hmul, this, hexp, hZdm, hZml]
    · by_contra hcon
      push_neg at hcon
      have hle : ((wsz / hop : ℕ) : ℤ) + 1 ≤ ((i : ℤ) - (j : ℤ)) / (hop : ℤ) := by omega
      have : (hop : ℤ) * (((wsz / hop : ℕ) : ℤ) + 1)
          ≤ (hop : ℤ) * (((i : ℤ) - (j : ℤ)) / (hop : ℤ)) := by
        apply mul_le_mul_of_nonneg_left hle (by positivity)
      have hexp : (hop : ℤ) * (((wsz / hop : ℕ) : ℤ) + 1)
          = (hop : ℤ) * ((wsz / hop : ℕ) : ℤ) + hop := by ring
      have hiZ : (i : ℤ) < (wsz : ℤ) := by exact_mod_cast hi
      have hjZ : (0 : ℤ) ≤ (j : ℤ) := by positivity
      linarith [hmul, this, hexp, hZdm, hZml]
    · constructor
      · rw [hmul]
        omega
      · rw [hmul]
        have hjZ : (0 : ℤ) ≤ (j : ℤ) := by positivity
        have hjwZ : (j : ℤ) < (wsz : ℤ) := by exact_mod_cast hjw
        omega
  · intro k hk
    obtain ⟨hIcc, hP⟩ := Finset.mem_filter.mp hk
    have hcast : ((((i : ℤ) - (hop : ℤ) * k).toNat : ℕ) : ℤ) = (i : ℤ) - (hop : ℤ) * k :=
      Int.toNat_of_nonneg hP.1
    show ((i : ℤ) - ((((i : ℤ) - (hop : ℤ) * k).toNat : ℕ) : ℤ)) / (hop : ℤ) = k
    rw [hcast]
    have harg : (i : ℤ) - ((i : ℤ) - (hop : ℤ) * k) = (hop : ℤ) * k := by ring
    rw [harg]
    exact Int.mul_ediv_cancel_left k (by exact_mod_cast hhop.ne')
  · intro j hj
    obtain ⟨hrange, hQ⟩ := Finset.mem_filter.mp hj
    have hmeqZ : (j : ℤ) ≡ (i : ℤ) [ZMOD (hop : ℤ)] := Int.natCast_modEq_iff.mpr hQ
    have hdvd : (hop : ℤ) ∣ (i : ℤ) - (j : ℤ) := Int.ModEq.dvd hmeqZ
    have hmul : (hop : ℤ) * (((i : ℤ) - (j : ℤ)) / (hop : ℤ)) = (i : ℤ) - (j : ℤ) := by
      rw [mul_comm]
      exact Int.ediv_mul_cancel hdvd
    show ((i : ℤ) - (hop : ℤ) * (((i : ℤ) - (j : ℤ)) / (hop : ℤ))).toNat = j
    rw [hmul]
    have harg2 : (i : ℤ) - ((i : ℤ) - (j : ℤ)) = (j : ℤ) := by ring
    rw [harg2]
    exact Int.toNat_natCast j
  · intro k _
    rfl

/-- Reindexing the overlap-add frame sum over a fully covered sample to a
sum over the window offsets in the sample's hop-residue class. -/
theorem ola_cover_sum (t wsz hop numFr : ℕ) (hhop : 0 < hop) (g : ℕ → ℝ)
    (hcov : ∀ j, j < wsz → j % hop = t % hop → j ≤ t ∧ (t - j) / hop < numFr) :
    (∑ p ∈ Finset.range numFr,
      if p * hop ≤ t ∧ t < p * hop + wsz then g (t - p * hop) else 0)
    = ∑ j ∈ (Finset.range wsz).filter (fun j => j % hop = t % hop), g j := by
  have hstep : (∑ p ∈ Finset.range numFr,
      if p * hop ≤ t ∧ t < p * hop + wsz then g (t - p * hop) else 0)
      = ∑ p ∈ (Finset.range numFr).filter (fun p => p * hop ≤ t ∧ t < p * hop + wsz),
          g (t - p * hop) :=
    (Finset.sum_filter _ _).symm
  rw [hstep]
  refine Finset.sum_bij' (fun p _ => t - p * hop) (fun j _ => (t - j) / hop) ?_ ?_ ?_ ?_ ?_
  · intro p hp
    obtain ⟨hrange, hc⟩ := Finset.mem_filter.mp hp
    refine Finset.mem_filter.mpr ⟨Finset.mem_range.mpr ?_, ?_⟩
    · show t - p * hop < wsz
      obtain ⟨h1, h2⟩ := hc
      generalize p * hop = q at h1 h2
      omega
    show (t - p * hop) % hop = t % hop
    have ht' : (t - p * hop) + p * hop = t := Nat.sub_add_cancel hc.1
    calc (t - p * hop) % hop = ((t - p * hop) + p * hop) % hop :=
          (Nat.add_mul_mod_self_right _ p hop).symm
      _ = t % hop := by rw [ht']
  · intro j hj
    obtain ⟨hrange, hQ⟩ := Finset.mem_filter.mp hj
    have hjw : j < wsz := Finset.mem_range.mp hrange
    obtain ⟨hjt, hfr⟩ := hcov j hjw hQ
    have hmeqZ : (j : ℤ) ≡ (t : ℤ) [ZMOD (hop : ℤ)] := Int.natCast_modEq_iff.mpr hQ
    have hdvdZ : (hop : ℤ) ∣ (t : ℤ) - (j : ℤ) := Int.ModEq.dvd hmeqZ
    have hdvdN : hop ∣ (t - j) := by
      have hcast : ((t - j : ℕ) : ℤ) = (t : ℤ) - (j : ℤ) := by omega
      have : (hop : ℤ) ∣ ((t - j : ℕ) : ℤ) := hcast ▸ hdvdZ
      exact_mod_cast this
    have hmul : (t - j) / hop * hop = t - j := Nat.div_mul_cancel hdvdN
    refine Finset.mem_filter.mpr ⟨Finset.mem_range.mpr hfr, ?_, ?_⟩
    · show (t - j) / hop * hop ≤ t
      rw [hmul]
      omega
    · show t < (t - j) / hop * hop + wsz
      rw [hmul]
      omega
  · intro p hp
    obtain ⟨hrange, hc⟩ := Finset.mem_filter.mp hp
    have h1 : t - (t - p * hop) = p * hop := Nat.sub_sub_self hc.1
    show (t - (t - p * hop)) / hop = p
    rw [h1]
    exact Nat.mul_div_cancel p hhop
  · intro j hj
    obtain ⟨hrange, hQ⟩ := Finset.mem_filter.mp hj
    have hjw : j < wsz := Finset.mem_range.mp hrange
    obtain ⟨hjt, hfr⟩ := hcov j hjw hQ
    have hmeqZ : (j : ℤ) ≡ (t : ℤ) [ZMOD (hop : ℤ)] := Int.natCast_modEq_iff.mpr hQ
    have hdvdZ : (hop : ℤ) ∣ (t : ℤ) - (j : ℤ) := Int.ModEq.dvd hmeqZ
    have hdvdN : hop ∣ (t - j) := by
      have hcast : ((t - j : ℕ) : ℤ) = (t : ℤ) - (j : ℤ) := by omega
      have : (hop : ℤ) ∣ ((t - j : ℕ) : ℤ) := hcast ▸ hdvdZ
      exact_mod_cast this
    have hmul : (t - j) / hop * hop = t - j := Nat.div_mul_cancel hdvdN
    show t - (t - j) / hop * hop = j
    rw [hmul]
    exact Nat.sub_sub_self hjt
  · intro p _
    rfl

/-- A filled row of an `STFT` spectrogram, fed back through `iDFT`,
reproduces the windowed padded segment. -/
theorem stft_row_idft (x : NArr ℝ) (c : ℝ) (wsz N hop p : ℕ) (hevN : Even N)
    (hwN : wsz ≤ N) (h0 : 0 < wsz)
    (hfill : p * hop + wsz ≤ (stftPad x hop).len) (j : ℕ) (hj : j < wsz) :
    (iDFT ⟨(STFT x ⟨wsz, fun n => c * hammingw wsz n⟩ N hop).1.cols,
           (STFT x ⟨wsz, fun n => c * hammingw wsz n⟩ N hop).1.val p⟩
          ⟨(STFT x ⟨wsz, fun n => c * hammingw wsz n⟩ N hop).2.1.cols,
           (STFT x ⟨wsz, fun n => c * hammingw wsz n⟩ N hop).2.1.val p⟩ wsz).val j
      = (stftPad x hop).val (p * hop + j) * (c * hammingw wsz j * (1 / Real.sqrt N)) := by
  have hvM : (STFT x ⟨wsz, fun n => c * hammingw wsz n⟩ N hop).1.val p
      = fun k => (DFT ⟨wsz, fun i => (stftPad x hop).val (p * hop + i)⟩
          (stftW ⟨wsz, fun n => c * hammingw wsz n⟩ N) N).1.val k := by
    simp only [STFT, RMat_val_mk, NArr_len_mk]
    funext k
    rw [if_pos hfill]
  have hvP : (STFT x ⟨wsz, fun n => c * hammingw wsz n⟩ N hop).2.1.val p
      = fun k => (DFT ⟨wsz, fun i => (stftPad x hop).val (p * hop + i)⟩
          (stftW ⟨wsz, fun n => c * hammingw wsz n⟩ N) N).2.val k := by
    simp only [STFT, RMat_val_mk, NArr_len_mk]
    funext k
    rw [if_pos hfill]
  have hcM : (STFT x ⟨wsz, fun n => c * hammingw wsz n⟩ N hop).1.cols = N / 2 + 1 := rfl
  have hcP : (STFT x ⟨wsz, fun n => c * hammingw wsz n⟩ N hop).2.1.cols = N / 2 + 1 := rfl
  rw [hvM, hvP, hcM, hcP, stftW_scaled_hamming c wsz N h0]
  have hetaM : (⟨N / 2 + 1, fun k => (DFT ⟨wsz, fun i => (stftPad x hop).val (p * hop + i)⟩
      ⟨wsz, fun n => c * hammingw wsz n * (1 / Real.sqrt N)⟩ N).1.val k⟩ : NArr ℝ)
      = (DFT ⟨wsz, fun i => (stftPad x hop).val (p * hop + i)⟩
          ⟨wsz, fun n => c * hammingw wsz n * (1 / Real.sqrt N)⟩ N).1 := rfl
  have hetaP : (⟨N / 2 + 1, fun k => (DFT ⟨wsz, fun i => (stftPad x hop).val (p * hop + i)⟩
      ⟨wsz, fun n => c * hammingw wsz n * (1 / Real.sqrt N)⟩ N).2.val k⟩ : NArr ℝ)
      = (DFT ⟨wsz, fun i => (stftPad x hop).val (p * hop + i)⟩
          ⟨wsz, fun n => c * hammingw wsz n * (1 / Real.sqrt N)⟩ N).2 := rfl
  rw [hetaM, hetaP]
  have hcore := dft_idft_core (⟨wsz, fun i => (stftPad x hop).val (p * hop + i)⟩ : NArr ℝ)
    (⟨wsz, fun n => c * hammingw wsz n * (1 / Real.sqrt N)⟩ : NArr ℝ) N hevN
    (by simpa using hwN) j (by simpa using hj)
  simpa using hcore

/-- Core computation for the smoothed inverse STFT: with a `c`-scaled
Hamming analysis window and FFT size `N = 2*(wsz-1)` (the size assumed by
the `GLA` synthesis window), every fully covered output sample of
`iSTFT(STFT(x, w, N, hop), wsz, hop, smt=True)` equals `c` times the
corresponding input sample. -/
theorem istft_stft_hamming_scale (x w : NArr ℝ) (c : ℝ) (wsz hop : ℕ)
    (hw : w = ⟨wsz, fun n => c * hammingw wsz n⟩)
    (h2 : 2 ≤ wsz) (hhop : 0 < hop) (hh2 : 2 * hop ≤ wsz) (s : ℕ) (hs : s < x.len)
    (hcov : ∀ j, j < wsz → j % hop = (s + 3 * hop) % hop →
      j ≤ s + 3 * hop ∧ s + 3 * hop - j + wsz ≤ x.len + 6 * hop) :
    s < (iSTFT (STFT x w (2 * (wsz - 1)) hop).1 (STFT x w (2 * (wsz - 1)) hop).2.1
          wsz hop true).len ∧
    (iSTFT (STFT x w (2 * (wsz - 1)) hop).1 (STFT x w (2 * (wsz - 1)) hop).2.1
        wsz hop true).val s = c * x.val s := by
  subst hw
  constructor
  · have hlen : (iSTFT (STFT x ⟨wsz, fun n => c * hammingw wsz n⟩ (2 * (wsz - 1)) hop).1
        (STFT x ⟨wsz, fun n => c * hammingw wsz n⟩ (2 * (wsz - 1)) hop).2.1 wsz hop true).len
        = (3 * hop + x.len + 3 * hop) / hop * hop + ((wsz + 1) / 2 + wsz / 2)
          - 3 * hop - (3 * hop + 1) := rfl
    rw [hlen]
    have hdm : (3 * hop + x.len + 3 * hop) / hop * hop + (3 * hop + x.len + 3 * hop) % hop
        = 3 * hop + x.len + 3 * hop := Nat.div_add_mod' _ _
    have hml : (3 * hop + x.len + 3 * hop) % hop < hop := Nat.mod_lt _ hhop
    generalize (3 * hop + x.len + 3 * hop) / hop * hop = A at hdm ⊢
    omega
  · have holadef :
        olaBuf (STFT x ⟨wsz, fun n => c * hammingw wsz n⟩ (2 * (wsz - 1)) hop).1
          (STFT x ⟨wsz, fun n => c * hammingw wsz n⟩ (2 * (wsz - 1)) hop).2.1 wsz hop true
          (s + 3 * hop)
        = ∑ p ∈ Finset.range ((3 * hop + x.len + 3 * hop) / hop),
            (if p * hop ≤ s + 3 * hop ∧ s + 3 * hop < p * hop + wsz then
              (iDFT
                ⟨(STFT x ⟨wsz, fun n => c * hammingw wsz n⟩ (2 * (wsz - 1)) hop).1.cols,
                 (STFT x ⟨wsz, fun n => c * hammingw wsz n⟩ (2 * (wsz - 1)) hop).1.val p⟩
                ⟨(STFT x ⟨wsz, fun n => c * hammingw wsz n⟩ (2 * (wsz - 1)) hop).2.1.cols,
                 (STFT x ⟨wsz, fun n => c * hammingw wsz n⟩ (2 * (wsz - 1)) hop).2.1.val p⟩
                wsz).val (s + 3 * hop - p * hop)
                * GLA wsz hop (((wsz : ℝ) - 1) * 2) (s + 3 * hop - p * hop)
            else 0) := rfl
    have hterm : ∀ p ∈ Finset.range ((3 * hop + x.len + 3 * hop) / hop),
        (if p * hop ≤ s + 3 * hop ∧ s + 3 * hop < p * hop + wsz then
          (iDFT
            ⟨(STFT x ⟨wsz, fun n => c * hammingw wsz n⟩ (2 * (wsz - 1)) hop).1.cols,
             (STFT x ⟨wsz, fun n => c * hammingw wsz n⟩ (2 * (wsz - 1)) hop).1.val p⟩
            ⟨(STFT x ⟨wsz, fun n => c * hammingw wsz n⟩ (2 * (wsz - 1)) hop).2.1.cols,
             (STFT x ⟨wsz, fun n => c * hammingw wsz n⟩ (2 * (wsz - 1)) hop).2.1.val p⟩
            wsz).val (s + 3 * hop - p * hop)
            * GLA wsz hop (((wsz : ℝ) - 1) * 2) (s + 3 * hop - p * hop)
        else 0)
        = (if p * hop ≤ s + 3 * hop ∧ s + 3 * hop < p * hop + wsz then
            x.val s * (c * hammingw wsz (s + 3 * hop - p * hop)
                * (1 / Real.sqrt ((2 * (wsz - 1) : ℕ) : ℝ)))
              * GLA wsz hop (((wsz : ℝ) - 1) * 2) (s + 3 * hop - p * hop)
          else 0) := by
      intro p hp
      by_cases hcover : p * hop ≤ s + 3 * hop ∧ s + 3 * hop < p * hop + wsz
      · rw [if_pos hcover, if_pos hcover]
        have hjlt : s + 3 * hop - p * hop < wsz := by
          obtain ⟨h1a, h1b⟩ := hcover
          generalize p * hop = q at h1a h1b
          omega
        have hjmod : (s + 3 * hop - p * hop) % hop = (s + 3 * hop) % hop := by
          have ht' : (s + 3 * hop - p * hop) + p * hop = s + 3 * hop :=
            Nat.sub_add_cancel hcover.1
          calc (s + 3 * hop - p * hop) % hop
              = ((s + 3 * hop - p * hop) + p * hop) % hop :=
                (Nat.add_mul_mod_self_right _ p hop).symm
            _ = (s + 3 * hop) % hop := by rw [ht']
        obtain ⟨hjle, hjfit⟩ := hcov (s + 3 * hop - p * hop) hjlt hjmod
        have hfill : p * hop + wsz ≤ (stftPad x hop).len := by
          rw [stftPad_len]
          have h1 : s + 3 * hop - (s + 3 * hop - p * hop) = p * hop :=
            Nat.sub_sub_self hcover.1
          rw [h1] at hjfit
          generalize p * hop = q at hjfit ⊢
          omega
        rw [stft_row_idft x c wsz (2 * (wsz - 1)) hop p ⟨wsz - 1, by omega⟩ (by omega)
          (by omega) hfill (s + 3 * hop - p * hop) hjlt]
        have hidx : p * hop + (s + 3 * hop - p * hop) = s + 3 * hop :=
          Nat.add_sub_cancel' hcover.1
        rw [hidx]
        have hxv : (stftPad x hop).val (s + 3 * hop) = x.val s := by
          simp only [stftPad, NArr_val_mk]
          rw [if_neg (by omega), if_pos (by omega)]
          congr 1
          omega
        rw [hxv]
      · rw [if_neg hcover, if_neg hcover]
    have hcov' : ∀ j, j < wsz → j % hop = (s + 3 * hop) % hop →
        j ≤ s + 3 * hop ∧ (s + 3 * hop - j) / hop < (3 * hop + x.len + 3 * hop) / hop := by
      intro j hj hjm
      obtain ⟨h1, hfit⟩ := hcov j hj hjm
      refine ⟨h1, ?_⟩
      have hle : (s + 3 * hop - j) + hop ≤ 3 * hop + x.len + 3 * hop := by omega
      have hstep : ((s + 3 * hop - j) + hop) / hop = (s + 3 * hop - j) / hop + 1 :=
        Nat.add_div_right _ hhop
      have hmono : ((s + 3 * hop - j) + hop) / hop ≤ (3 * hop + x.len + 3 * hop) / hop :=
        Nat.div_le_div_right hle
      rw [hstep] at hmono
      omega
    have hNRpos : (0 : ℝ) < ((wsz : ℝ) - 1) * 2 := by
      have hc2 : (2 : ℝ) ≤ (wsz : ℝ) := by exact_mod_cast h2
      nlinarith
    have hcastN : ((2 * (wsz - 1) : ℕ) : ℝ) = ((wsz : ℝ) - 1) * 2 := by
      push_cast [Nat.cast_sub (by omega : 1 ≤ wsz)]
      ring
    have hErpos : 0 < ∑ j ∈ (Finset.range wsz).filter
        (fun j => j % hop = (s + 3 * hop) % hop),
        GLAsynw wsz (((wsz : ℝ) - 1) * 2) j ^ 2 :=
      residue_energy_pos wsz hop _ hNRpos hhop (by omega) (s + 3 * hop)
    set Er := ∑ j ∈ (Finset.range wsz).filter (fun j => j % hop = (s + 3 * hop) % hop),
        GLAsynw wsz (((wsz : ℝ) - 1) * 2) j ^ 2 with hEr
    have helem : ∀ j ∈ (Finset.range wsz).filter (fun j => j % hop = (s + 3 * hop) % hop),
        x.val s * (c * hammingw wsz j * (1 / Real.sqrt ((2 * (wsz - 1) : ℕ) : ℝ)))
            * GLA wsz hop (((wsz : ℝ) - 1) * 2) j
        = (x.val s * c / Er) * GLAsynw wsz (((wsz : ℝ) - 1) * 2) j ^ 2 := by
      intro j hjmem
      obtain ⟨hjr, hjm⟩ := Finset.mem_filter.mp hjmem
      have hjw := Finset.mem_range.mp hjr
      have henv : GLAenv wsz hop (((wsz : ℝ) - 1) * 2) j = Er := by
        rw [GLAenv_eq wsz hop _ j hhop hjw, hEr]
        simp only [hjm]
      have hGLA : GLA wsz hop (((wsz : ℝ) - 1) * 2) j
          = GLAsynw wsz (((wsz : ℝ) - 1) * 2) j / Er := by
        rw [← henv]
        rfl
      rw [hGLA, hcastN]
      unfold GLAsynw
      have hA : Real.sqrt (((wsz : ℝ) - 1) * 2) ≠ 0 := ne_of_gt (Real.sqrt_pos.mpr hNRpos)
      have hE : Er ≠ 0 := ne_of_gt hErpos
      field_simp
      ring
    have hfinal :
        olaBuf (STFT x ⟨wsz, fun n => c * hammingw wsz n⟩ (2 * (wsz - 1)) hop).1
          (STFT x ⟨wsz, fun n => c * hammingw wsz n⟩ (2 * (wsz - 1)) hop).2.1 wsz hop true
          (s + 3 * hop) = c * x.val s := by
      rw [holadef, Finset.sum_congr rfl hterm,
        ola_cover_sum (s + 3 * hop) wsz hop ((3 * hop + x.len + 3 * hop) / hop) hhop
          (fun j => x.val s * (c * hammingw wsz j * (1 / Real.sqrt ((2 * (wsz - 1) : ℕ) : ℝ)))
            * GLA wsz hop (((wsz : ℝ) - 1) * 2) j) hcov',
        Finset.sum_congr rfl helem, ← Finset.mul_sum, ← hEr]
      rw [div_mul_cancel₀ _ (ne_of_gt hErpos)]
      ring
    exact hfinal

/-- C2 (amended). For the Hamming analysis window of length `wsz` and FFT
size `N = 2*(wsz-1)` (the size the `GLA` synthesis window is built for),
with `hop ≤ wsz/2`, the least-squares-synthesis-window inverse
`iSTFT(STFT(x,w,N,hop), wsz, hop, smt=True)` reproduces `x` exactly at
every sample whose window supports are fully covered by analysed frames.
For other analysis windows or FFT sizes the overlap-add output is scaled
or distorted, since `GLA` builds its synthesis window from the Hamming
window regardless of `w`. -/
theorem istft_stft_reconstruction (x : NArr ℝ) (wsz hop : ℕ)
    (h2 : 2 ≤ wsz) (hhop : 0 < hop) (hh2 : 2 * hop ≤ wsz) (s : ℕ) (hs : s < x.len)
    (hcov : ∀ j, j < wsz → j % hop = (s + 3 * hop) % hop →
      j ≤ s + 3 * hop ∧ s + 3 * hop - j + wsz ≤ x.len + 6 * hop) :
    s < (iSTFT (STFT x ⟨wsz, hammingw wsz⟩ (2 * (wsz - 1)) hop).1
          (STFT x ⟨wsz, hammingw wsz⟩ (2 * (wsz - 1)) hop).2.1 wsz hop true).len ∧
    (iSTFT (STFT x ⟨wsz, hammingw wsz⟩ (2 * (wsz - 1)) hop).1
        (STFT x ⟨wsz, hammingw wsz⟩ (2 * (wsz - 1)) hop).2.1 wsz hop true).val s
      = x.val s := by
  have hwid : (⟨wsz, fun n => 1 * hammingw wsz n⟩ : NArr ℝ) = ⟨wsz, hammingw wsz⟩ := by
    congr 1
    funext n
    ring
  have h := istft_stft_hamming_scale x ⟨wsz, fun n => 1 * hammingw wsz n⟩ 1 wsz hop rfl
    h2 hhop hh2 s hs hcov
  rw [hwid] at h
  refine ⟨h.1, ?_⟩
  rw [h.2]
  ring

/-- Concrete all-ones signal of length 4 used for C2. -/
def sigOnes4 : NArr ℝ := ⟨4, fun _ => 1⟩

/-- Doubled Hamming window of length 4 used for the C2 counterexample. -/
noncomputable def win2Ham4 : NArr ℝ := ⟨4, fun n => 2 * hammingw 4 n⟩

/-- C2 is false as stated (for *every* window `w`): with the doubled
Hamming window `w = 2*hamming(4)`, `N = 6`, `hop = 2`, the fully covered
sample 0 of the all-ones signal is reconstructed as `2`, not `1` — the
`GLA` synthesis window is built from `hamming(wsz)` regardless of the
analysis window, so overlap-add reproduces `2*x`, not `x`. -/
theorem istft_stft_counterexample :
    (iSTFT (STFT sigOnes4 win2Ham4 6 2).1 (STFT sigOnes4 win2Ham4 6 2).2.1 4 2 true).val 0
      ≠ sigOnes4.val 0 := by
  have h := istft_stft_hamming_scale sigOnes4 win2Ham4 2 4 2 rfl (by norm_num) (by norm_num)
    (by norm_num) 0 (by norm_num [sigOnes4]) (by
      intro j hj hjm
      simp only [sigOnes4, NArr_len_mk]
      omega)
  have h2v : (iSTFT (STFT sigOnes4 win2Ham4 6 2).1 (STFT sigOnes4 win2Ham4 6 2).2.1
      4 2 true).val 0 = 2 * sigOnes4.val 0 := h.2
  rw [h2v]
  norm_num [sigOnes4]

/-- Witness for the amended C2 at the all-ones length-4 signal,
`wsz = 4`, `hop = 2`, sample 0. -/
theorem istft_stft_reconstruction_check :
    ((2 : ℕ) ≤ 4 ∧ (0 : ℕ) < 2 ∧ 2 * 2 ≤ 4 ∧ (0 : ℕ) < sigOnes4.len) ∧
    (iSTFT (STFT sigOnes4 ⟨4, hammingw 4⟩ (2 * (4 - 1)) 2).1
        (STFT sigOnes4 ⟨4, hammingw 4⟩ (2 * (4 - 1)) 2).2.1 4 2 true).val 0
      = sigOnes4.val 0 :=
  ⟨⟨by norm_num, by norm_num, by norm_num, by norm_num [sigOnes4]⟩,
    (istft_stft_reconstruction sigOnes4 4 2 (by norm_num) (by norm_num) (by norm_num) 0
      (by norm_num [sigOnes4]) (by
        intro j hj hjm
        simp only [sigOnes4, NArr_len_mk]
        omega)).2⟩

/-- Concrete all-zero spectrogram (8 frames, 4 bins) used for C3. -/
def zeroSpec84 : RMat := ⟨8, 4, fun _ _ => 0⟩

/-- C3 is false as stated: with 8 frames, `wsz = 4`, `hop = 2` the
returned signal has length 7, not `numFrames*hop + wsz - 6*hop = 8`
(the second `np.delete` removes `3*hop + 1` trailing samples). -/
theorem istft_strip_counterexample :
    (iSTFT zeroSpec84 zeroSpec84 4 2 true).len ≠ zeroSpec84.rows * 2 + 4 - 6 * 2 := by
  show (8 * 2 + ((4 + 1) / 2 + 4 / 2) - 3 * 2 - (3 * 2 + 1) : ℕ) ≠ 8 * 2 + 4 - 6 * 2
  decide

/-- C3 (amended). `iSTFT` strips exactly `3*hop` samples from the start
but `3*hop + 1` samples from the end of the overlap-added buffer, so the
returned signal has length `numFrames*hop + wsz - 6*hop - 1`. -/
theorem istft_strip_lengths (xmX xpX : RMat) (wsz hop : ℕ) (smt : Bool)
    (hlen : 6 * hop + 1 ≤ xmX.rows * hop + wsz) :
    (iSTFT xmX xpX wsz hop smt).len = xmX.rows * hop + wsz - (6 * hop + 1) ∧
    ∀ i, (iSTFT xmX xpX wsz hop smt).val i = olaBuf xmX xpX wsz hop smt (i + 3 * hop) := by
  constructor
  · show xmX.rows * hop + ((wsz + 1) / 2 + wsz / 2) - 3 * hop - (3 * hop + 1)
      = xmX.rows * hop + wsz - (6 * hop + 1)
    omega
  · intro i
    rfl

/-- Witness for the amended C3 at the concrete 8-frame spectrogram. -/
theorem istft_strip_lengths_check :
    (6 * 2 + 1 ≤ zeroSpec84.rows * 2 + 4) ∧
    (iSTFT zeroSpec84 zeroSpec84 4 2 true).len = zeroSpec84.rows * 2 + 4 - (6 * 2 + 1) :=
  ⟨by decide, (istft_strip_lengths zeroSpec84 zeroSpec84 4 2 true (by decide)).1⟩

/-- Concrete window `[1,1]` shared across two `STFT` calls for C4. -/
def winOnes2 : NArr ℝ := ⟨2, fun _ => 1⟩

/-- C4 is false on the code: `STFT` rescales the caller's window object by
`1/sqrt(N)` on *every* call whose current sum is nonzero, not once.  With
`w = [1,1]`, `N = 4`, `hop = 1`: after the first call the stored window is
`[1/2, 1/2]` — so the second call does not observe the window the first
call observed — and the second call rescales again, leaving `[1/4, 1/4]`. -/
theorem stft_window_rescaled_every_call :
    (STFT winOnes2 winOnes2 4 1).2.2.val 0 = 1 / 2 ∧
    (STFT winOnes2 (STFT winOnes2 winOnes2 4 1).2.2 4 1).2.2.val 0 = 1 / 4 ∧
    (STFT winOnes2 (STFT winOnes2 winOnes2 4 1).2.2 4 1).2.2.val 0
      ≠ (STFT winOnes2 winOnes2 4 1).2.2.val 0 := by
  have h4 : Real.sqrt 4 = 2 := by
    rw [show (4 : ℝ) = 2 ^ 2 by norm_num, Real.sqrt_sq (by norm_num : (0 : ℝ) ≤ 2)]
  have hfirst : (STFT winOnes2 winOnes2 4 1).2.2 = stftW winOnes2 4 := rfl
  have h1 : stftW winOnes2 4 = ⟨2, fun j => winOnes2.val j * (1 / Real.sqrt 4)⟩ := by
    unfold stftW
    rw [if_pos]
    · simp [winOnes2]
    · norm_num [winOnes2, Finset.sum_range_succ]
  have hv1 : (STFT winOnes2 winOnes2 4 1).2.2.val 0 = 1 / 2 := by
    rw [hfirst, h1]
    norm_num [winOnes2, h4]
  have hv2 : (STFT winOnes2 (STFT winOnes2 winOnes2 4 1).2.2 4 1).2.2.val 0 = 1 / 4 := by
    have hsecond : (STFT winOnes2 (STFT winOnes2 winOnes2 4 1).2.2 4 1).2.2
        = stftW (stftW winOnes2 4) 4 := rfl
    rw [hsecond, h1]
    unfold stftW
    rw [if_pos]
    · norm_num [winOnes2, h4]
    · norm_num [winOnes2, h4, Finset.sum_range_succ]
  refine ⟨hv1, hv2, ?_⟩
  rw [hv1, hv2]
  norm_num

/-- Model of `np.remainder(a, m)` on exact rationals:
`a - m*floor(a/m)` (result carries the sign of the divisor). -/
def npRemainder (a m : ℚ) : ℚ := a - m * ⌊a / m⌋

/-- Full linear convolution (`scipy.signal.fftconvolve`, exact): output
length `len(u)+len(v)-1`, entry `n` summing `u[i]*v[n-i]`. -/
noncomputable def conv (u v : NArr ℂ) : NArr ℂ :=
  ⟨u.len + v.len - 1, fun n =>
    ∑ i ∈ Finset.range (n + 1),
      if i < u.len ∧ n - i < v.len then u.val i * v.val (n - i) else 0⟩

/-- Model of `np.sinc`: the normalised sinc `sin(pi*x)/(pi*x)`, `1` at
`x = 0`. -/
noncomputable def npSinc (x : ℝ) : ℝ :=
  if x = 0 then 1 else Real.sin (Real.pi * x) / (Real.pi * x)

/-- Model of `TimeFrequencyDecomposition.sincinterp`: upsample by two
(zeros in the odd slots), convolve with a sinc kernel on the half-integer
grid `-(2N-3)/2 .. (2N-3)/2`, keep the central `2N-1` samples. -/
noncomputable def sincinterp (x : NArr ℂ) : NArr ℂ :=
  let N := x.len
  let y : NArr ℂ := ⟨2 * N - 1, fun i => if i % 2 = 0 then x.val (i / 2) else 0⟩
  let ker : NArr ℂ := ⟨4 * N - 5, fun i =>
    ((npSinc (((((i : ℤ) - (2 * (N : ℤ) - 3)) : ℤ) : ℝ) / 2) : ℝ) : ℂ)⟩
  let xint := conv y ker
  ⟨2 * N - 1, fun j => xint.val (j + (2 * N - 3))⟩

/-- The in-place centred FFT `f[shft] = fft(f[shft])/sqrt(N)` used by
`frft`, with `shft = (arange(N) + fix(N/2)) mod N`: entry `m` of the
result is bin `(m - N//2) mod N` of the FFT of the rotated signal,
scaled by `1/sqrt(N)`. -/
noncomputable def shftFFT (f : NArr ℂ) : NArr ℂ :=
  ⟨f.len, fun m =>
    fftv f.len (fun n => f.val ((n + f.len / 2) % f.len))
      ((m + (f.len - f.len / 2)) % f.len) / ((Real.sqrt f.len : ℝ) : ℂ)⟩

/-- The in-place centred inverse FFT `f[shft] = ifft(f[shft])*sqrt(N)`
used by `frft`. -/
noncomputable def shftIFFT (f : NArr ℂ) : NArr ℂ :=
  ⟨f.len, fun m =>
    ifftv f.len (fun n => f.val ((n + f.len / 2) % f.len))
      ((m + (f.len - f.len / 2)) % f.len) * ((Real.sqrt f.len : ℝ) : ℂ)⟩

/-- Model of `np.flipud` on 1-D arrays. -/
def flipud (f : NArr ℂ) : NArr ℂ := ⟨f.len, fun m => f.val (f.len - 1 - m)⟩

/-- General-order chirp stage of `frft` at reduced order `0.5 < a < 1.5`:
sinc interpolation, zero padding to length `4N-3`, chirp
pre-multiplication, chirp convolution (slice `[4N-4 : 8N-7]`), chirp
post-multiplication, global phase `exp(-1j*(1-a)*pi/4)`, and decimation
`[N-1 : -N+1 : 2]`. -/
noncomputable def frftCore (g : NArr ℂ) (aR : ℝ) : NArr ℂ :=
  let N := g.len
  let alpha := aR * Real.pi / 2
  let tana2 := Real.tan (alpha / 2)
  let sina := Real.sin alpha
  let fbig : NArr ℂ := ⟨4 * N - 3, fun i =>
    if N - 1 ≤ i ∧ i < N - 1 + (2 * N - 1) then (sincinterp g).val (i - (N - 1)) else 0⟩
  let chrp : NArr ℂ := ⟨4 * N - 3, fun i =>
    Complex.exp (-Complex.I * Real.pi / N * tana2 / 4 * ((((i : ℤ) - (2 * (N : ℤ) - 2)) : ℂ)) ^ 2)⟩
  let f2 : NArr ℂ := ⟨4 * N - 3, fun i => chrp.val i * fbig.val i⟩
  let cc := Real.pi / N / sina / 4
  let e2 : NArr ℂ := ⟨8 * N - 7, fun i =>
    Complex.exp (Complex.I * cc * ((((i : ℤ) - (4 * (N : ℤ) - 4)) : ℂ)) ^ 2)⟩
  let r1 := conv e2 f2
  let r2 : NArr ℂ := ⟨4 * N - 3, fun i =>
    r1.val (i + (4 * N - 4)) * ((Real.sqrt (cc / Real.pi) : ℝ) : ℂ)⟩
  let r3 : NArr ℂ := ⟨4 * N - 3, fun i => chrp.val i * r2.val i⟩
  ⟨N, fun j => Complex.exp (-Complex.I * (1 - aR) * Real.pi / 4) * r3.val (N - 1 + 2 * j)⟩

/-- Model of `TimeFrequencyDecomposition.frft`: order reduced mod 4,
special cases at `a ∈ {0,1,2,3}` (identity, centred FFT, reversal,
centred inverse FFT), otherwise reduction to `0.5 < a < 1.5` by at most
one flip (`a > 2`) and one FFT/iFFT pre-rotation, then the chirp stage. -/
noncomputable def frft (f : NArr ℂ) (a0 : ℚ) : NArr ℂ :=
  let a := npRemainder a0 4
  if a = 0 then f
  else if a = 2 then flipud f
  else if a = 1 then shftFFT f
  else if a = 3 then shftIFFT f
  else
    let p1 : ℚ × NArr ℂ := if a > 2 then (a - 2, flipud f) else (a, f)
    let p2 : ℚ × NArr ℂ := if p1.1 > 1.5 then (p1.1 - 1, shftFFT p1.2) else p1
    let p3 : ℚ × NArr ℂ := if p2.1 < 0.5 then (p2.1 + 1, shftIFFT p2.2) else p2
    frftCore p3.2 ((p3.1 : ℚ) : ℝ)

/-- Model of `TimeFrequencyDecomposition.ifrft`: the forward transform at
negated order, exactly as in the source (`return frft(f, -a)`). -/
noncomputable def ifrft (f : NArr ℂ) (a : ℚ) : NArr ℂ := frft f (-a)

/-- The inverse fractional transform is definitionally the forward
transform at negated order. -/
theorem ifrft_eq_frft_neg (f : NArr ℂ) (a : ℚ) : ifrft f a = frft f (-a) := rfl

theorem frft_at_zero (f : NArr ℂ) : frft f 0 = f := by
  unfold frft
  norm_num [npRemainder]

theorem frft_at_two (f : NArr ℂ) : frft f 2 = flipud f := by
  unfold frft
  norm_num [npRemainder]

theorem frft_at_one (f : NArr ℂ) : frft f 1 = shftFFT f := by
  unfold frft
  norm_num [npRemainder]

/-- Rotating the argument of a summand by one permutes a full-period
range sum. -/
theorem sum_range_rotate_one (N : ℕ) (hN : 0 < N) (g : ℕ → ℂ) :
    ∑ m ∈ Finset.range N, g ((m + 1) % N) = ∑ m ∈ Finset.range N, g m := by
  obtain ⟨M, hM⟩ : ∃ M, N = M + 1 := ⟨N - 1, by omega⟩
  subst hM
  rw [Finset.sum_range_succ, Nat.mod_self]
  have hsmall : ∀ m ∈ Finset.range M, g ((m + 1) % (M + 1)) = g (m + 1) := by
    intro m hm
    have := Finset.mem_range.mp hm
    rw [Nat.mod_eq_of_lt (by omega)]
  rw [Finset.sum_congr rfl hsmall]
  exact (Finset.sum_range_succ' g M).symm

/-- Rotating the argument of a summand permutes a full-period range sum. -/
theorem sum_range_rotate (N : ℕ) (hN : 0 < N) :
    ∀ (s : ℕ) (g : ℕ → ℂ),
      ∑ n ∈ Finset.range N, g ((n + s) % N) = ∑ m ∈ Finset.range N, g m := by
  intro s
  induction s with
  | zero =>
    intro g
    refine Finset.sum_congr rfl (fun n hn => ?_)
    rw [Nat.add_zero, Nat.mod_eq_of_lt (Finset.mem_range.mp hn)]
  | succ s ih =>
    intro g
    have hstep : ∀ n, g ((n + (s + 1)) % N) = (fun m => g ((m + 1) % N)) ((n + s) % N) := by
      intro n
      show g ((n + (s + 1)) % N) = g (((n + s) % N + 1) % N)
      congr 1
      conv_lhs => rw [show n + (s + 1) = (n + s) + 1 by omega]
      rw [Nat.add_mod (n + s) 1 N, Nat.add_mod ((n + s) % N) 1 N,
        Nat.mod_mod_of_dvd _ dvd_rfl]
    rw [Finset.sum_congr rfl (fun n _ => hstep n), ih (fun m => g ((m + 1) % N))]
    exact sum_range_rotate_one N hN g

/-- The FFT of a circularly rotated signal is the FFT of the signal
times a unit modulation. -/
theorem fftv_rotate (N s : ℕ) (x : ℕ → ℂ) (k : ℕ) (hN : 0 < N) :
    fftv N (fun n => x ((n + s) % N)) k = eN N ((k : ℤ) * s) * fftv N x k := by
  unfold fftv
  have key : ∀ n, x ((n + s) % N) * eN N (-((k : ℤ) * n))
      = (fun m => x m * eN N (-((k : ℤ) * ((m : ℤ) - s)))) ((n + s) % N) := by
    intro n
    show x ((n + s) % N) * eN N (-((k : ℤ) * n))
      = x ((n + s) % N) * eN N (-((k : ℤ) * ((((n + s) % N : ℕ) : ℤ) - s)))
    congr 1
    have hdm : N * ((n + s) / N) + (n + s) % N = n + s := Nat.div_add_mod _ _
    have hdmZ : (N : ℤ) * (((n + s) / N : ℕ) : ℤ) + (((n + s) % N : ℕ) : ℤ)
        = (n : ℤ) + s := by exact_mod_cast hdm
    have hc : (((n + s) % N : ℕ) : ℤ) - s = (n : ℤ) + N * (-(((n + s) / N : ℕ) : ℤ)) := by
      linear_combination hdmZ
    rw [hc]
    have harg : -((k : ℤ) * ((n : ℤ) + (N : ℤ) * (-(((n + s) / N : ℕ) : ℤ))))
        = -((k : ℤ) * n) + (N : ℤ) * ((k : ℤ) * (((n + s) / N : ℕ) : ℤ)) := by ring
    rw [harg, eN_mod_add]
  rw [Finset.sum_congr rfl (fun n _ => key n),
    sum_range_rotate N hN s (fun m => x m * eN N (-((k : ℤ) * ((m : ℤ) - s))))]
  have hbeta : ∑ m ∈ Finset.range N, (fun m => x m * eN N (-((k : ℤ) * ((m : ℤ) - s)))) m
      = ∑ m ∈ Finset.range N, x m * eN N (-((k : ℤ) * ((m : ℤ) - s))) := rfl
  rw [hbeta, Finset.mul_sum]
  refine Finset.sum_congr rfl (fun m _ => ?_)
  have harg : -((k : ℤ) * ((m : ℤ) - s)) = (k : ℤ) * s + -((k : ℤ) * m) := by ring
  rw [harg, eN_add]
  ring

/-- Magnitude of the `a = 1` branch of `frft`: bin `(k + N//2) mod N` of
the output carries the magnitude of ordinary FFT bin `k`, scaled by
`1/sqrt(N)`. -/
theorem frft_one_abs (f : NArr ℂ) (k : ℕ) (hk : k < f.len) :
    Complex.abs ((frft f 1).val ((k + f.len / 2) % f.len))
      = Complex.abs (fftv f.len f.val k) / Real.sqrt f.len := by
  have hN : 0 < f.len := by omega
  rw [frft_at_one f]
  have hidx : (((k + f.len / 2) % f.len) + (f.len - f.len / 2)) % f.len = k := by
    rw [Nat.mod_add_mod]
    have habs : k + f.len / 2 + (f.len - f.len / 2) = k + f.len := by omega
    rw [habs, Nat.add_mod_right, Nat.mod_eq_of_lt hk]
  show Complex.abs (fftv f.len (fun n => f.val ((n + f.len / 2) % f.len))
      ((((k + f.len / 2) % f.len) + (f.len - f.len / 2)) % f.len)
      / ((Real.sqrt f.len : ℝ) : ℂ)) = _
  rw [hidx, fftv_rotate f.len (f.len / 2) f.val k hN, map_div₀, map_mul, abs_eN, one_mul,
    Complex.abs_ofReal, abs_of_nonneg (Real.sqrt_nonneg _)]

/-- C5 (amended). `frFT(f,0) = f`; `frFT(f,2)` reverses `f`; and the
magnitude of `frFT(f,1)` is the *centred* (fftshift-permuted) FFT
magnitude scaled by `1/sqrt(N)`: bin `(k + N//2) mod N` of `frFT(f,1)`
carries `|FFT(f)[k]|/sqrt(N)` (the per-bin identity without the half-length
rotation is false, see the counterexample). -/
theorem frft_boundary_orders (f : NArr ℂ) :
    frft f 0 = f ∧
    (∀ m, m < f.len → (frft f 2).val m = f.val (f.len - 1 - m)) ∧
    (∀ k, k < f.len → Complex.abs ((frft f 1).val ((k + f.len / 2) % f.len))
      = Complex.abs (fftv f.len f.val k) / Real.sqrt f.len) := by
  refine ⟨frft_at_zero f, ?_, ?_⟩
  · intro m hm
    rw [frft_at_two f]
    rfl
  · intro k hk
    exact frft_one_abs f k hk

/-- Concrete complex signal `[1, 1, 0, 0]` used for C5. -/
noncomputable def cplxSig4 : NArr ℂ := ⟨4, fun n => if n < 2 then 1 else 0⟩

/-- Witness for the amended C5 at `f = [1,1,0,0]`. -/
theorem frft_boundary_orders_check :
    ((0 : ℕ) < cplxSig4.len ∧ (1 : ℕ) < cplxSig4.len) ∧
    frft cplxSig4 0 = cplxSig4 ∧
    (frft cplxSig4 2).val 0 = cplxSig4.val (cplxSig4.len - 1 - 0) ∧
    Complex.abs ((frft cplxSig4 1).val ((1 + cplxSig4.len / 2) % cplxSig4.len))
      = Complex.abs (fftv cplxSig4.len cplxSig4.val 1) / Real.sqrt cplxSig4.len :=
  ⟨⟨by norm_num [cplxSig4], by norm_num [cplxSig4]⟩,
   (frft_boundary_orders cplxSig4).1,
   (frft_boundary_orders cplxSig4).2.1 0 (by norm_num [cplxSig4]),
   (frft_boundary_orders cplxSig4).2.2 1 (by norm_num [cplxSig4])⟩

theorem eN_four_neg_two : eN 4 (-2) = -1 := by
  unfold eN
  have harg : 2 * (Real.pi : ℂ) * Complex.I * ((-2 : ℤ) : ℂ) / ((4 : ℕ) : ℂ)
      = -((Real.pi : ℂ) * Complex.I) := by
    push_cast
    ring
  rw [harg, Complex.exp_neg, Complex.exp_pi_mul_I]
  norm_num

/-- C5 is false as stated: for `f = [1,1,0,0]` the magnitude of bin 0 of
`frFT(f,1)` is `0`, while `|FFT(f)[0]|/sqrt(4) = 1` — the special-cased
`a = 1` branch produces the *centred* spectrum, so the per-bin magnitude
match with the ordinary FFT fails. -/
theorem frft_one_abs_counterexample :
    Complex.abs ((frft cplxSig4 1).val 0)
      ≠ Complex.abs (fftv 4 cplxSig4.val 0) / Real.sqrt 4 := by
  have h4 : Real.sqrt 4 = 2 := by
    rw [show (4 : ℝ) = 2 ^ 2 by norm_num, Real.sqrt_sq (by norm_num : (0 : ℝ) ≤ 2)]
  have hval : (frft cplxSig4 1).val 0
      = fftv 4 (fun n => cplxSig4.val ((n + 2) % 4)) 2 / ((Real.sqrt 4 : ℝ) : ℂ) := by
    rw [frft_at_one]
    rfl
  have hm4 : eN 4 (-4) = 1 := by
    have h := eN_mod_add 4 0 (-1)
    rw [eN_zero] at h
    norm_num at h
    exact h
  have hm6 : eN 4 (-6) = -1 := by
    have h := eN_mod_add 4 (-2) (-1)
    norm_num at h
    rw [h, eN_four_neg_two]
  have hLHS : fftv 4 (fun n => cplxSig4.val ((n + 2) % 4)) 2 = 0 := by
    unfold fftv
    rw [Finset.sum_range_succ, Finset.sum_range_succ, Finset.sum_range_succ,
      Finset.sum_range_succ, Finset.sum_range_zero]
    norm_num [cplxSig4]
    rw [hm4, hm6]
    ring
  have hRHS : fftv 4 cplxSig4.val 0 = 2 := by
    unfold fftv
    rw [Finset.sum_range_succ, Finset.sum_range_succ, Finset.sum_range_succ,
      Finset.sum_range_succ, Finset.sum_range_zero]
    norm_num [cplxSig4, eN_zero]
  rw [hval, hLHS, hRHS]
  simp [h4]

/-- Model of `TimeFrequencyDecomposition.coreModulation`: the
cosine-modulated polyphase matrix, built into a zero-initialised
`(N, len(win))` array.  For the `MDCT` and `PQMF-polyphase` selectors the
entries are filled; for any other selector the source executes
`assert('Unknown type')` — a no-op, since a non-empty string is truthy —
and returns the zero-initialised matrix unchanged (`N/2` inside the MDCT
phase is Python 2 integer division). -/
noncomputable def coreModulation (win : NArr ℝ) (N : ℕ) (type : String) : RMat :=
  ⟨N, win.len, fun k n =>
    if k < N ∧ n < win.len then
      (if type = "MDCT" then
        win.val n * Real.cos (Real.pi / N * ((k : ℝ) + 0.5) * ((n : ℝ) + 0.5 + ((N / 2 : ℕ) : ℝ)))
          * Real.sqrt (2 / N)
      else if type = "PQMF-polyphase" then
        win.val n * Real.cos (Real.pi / N * ((k : ℝ) + 0.5) * ((n : ℝ) + 0.5)) * Real.sqrt (2 / N)
      else 0)
    else 0⟩

/-- C7 (code behaviour at the failing input). With an unknown selector
`"DST"`, `coreModulation(cosine(4), 2, "DST")` does *not* raise: the
`assert('Unknown type')` guard is a no-op (a non-empty string is always
truthy), so the call falls through and returns the zero-initialised
`2 x 4` matrix instead of reporting a configuration error. -/
theorem coreModulation_unknown_selector :
    (coreModulation (cosineW 4) 2 "DST").rows = 2 ∧
    (coreModulation (cosineW 4) 2 "DST").cols = 4 ∧
    ∀ k n, (coreModulation (cosineW 4) 2 "DST").val k n = 0 := by
  refine ⟨rfl, rfl, ?_⟩
  intro k n
  simp [coreModulation]

/-- Model of `TimeFrequencyDecomposition.real_analysis`.  The process-wide
`Cos` global is threaded explicitly as an `Option RMat` state: the cached
matrix is reused iff `(Cos.T).shape[1]` — its row count — equals `N`,
otherwise `coreModulation(cosine(2N), N)` rebuilds it.  Returns the new
cache state and the analysis frames (allocated `len(x)//N` rows, the first
`len(x)//N - 2` of which are filled with `x[m*N : m*N+lfb] @ Cos.T`). -/
noncomputable def real_analysis (cache : Option RMat) (x : NArr ℝ) (N : ℕ) :
    Option RMat × RMat :=
  let win := cosineW (2 * N)
  let lfb := win.len
  let nTimeSlots := x.len / N - 2
  let Cos := match cache with
    | some C => if C.rows = N then C else coreModulation win N "MDCT"
    | none => coreModulation win N "MDCT"
  (some Cos,
   ⟨x.len / N, N, fun m k =>
      if m < nTimeSlots ∧ k < N then
        ∑ n ∈ Finset.range lfb, x.val (m * N + n) * Cos.val k n
      else 0⟩)

/-- Model of `TimeFrequencyDecomposition.real_synthesis` (same cache
discipline, with `N = y.shape[1]`): overlap-add of `y[m,:] @ Cos` at
`N`-sample strides into a buffer of length `(nTimeSlots + 2) * N`. -/
noncomputable def real_synthesis (cache : Option RMat) (y : RMat) :
    Option RMat × NArr ℝ :=
  let N := y.cols
  let win := cosineW (2 * N)
  let lfb := win.len
  let nTimeSlots := y.rows
  let Cos := match cache with
    | some C => if C.rows = N then C else coreModulation win N "MDCT"
    | none => coreModulation win N "MDCT"
  (some Cos,
   ⟨nTimeSlots * N + 2 * N, fun t =>
      ∑ m ∈ Finset.range nTimeSlots,
        if m * N ≤ t ∧ t < m * N + lfb then
          ∑ k ∈ Finset.range N, y.val m k * Cos.val k (t - m * N)
        else 0⟩)

/-- The matrix stored (and used) by a `real_analysis` call always has row
count `N`. -/
theorem real_analysis_cache_rows (st : Option RMat) (x : NArr ℝ) (N : ℕ) :
    ∃ C, (real_analysis st x N).1 = some C ∧ C.rows = N := by
  unfold real_analysis
  cases st with
  | none => exact ⟨_, rfl, rfl⟩
  | some C =>
    by_cases h : C.rows = N
    · exact ⟨C, by simp [h], h⟩
    · exact ⟨coreModulation (cosineW (2 * N)) N "MDCT", by simp [h], rfl⟩

/-- The matrix stored (and used) by a `real_synthesis` call always has
row count `y.cols`. -/
theorem real_synthesis_cache_rows (st : Option RMat) (y : RMat) :
    ∃ C, (real_synthesis st y).1 = some C ∧ C.rows = y.cols := by
  unfold real_synthesis
  cases st with
  | none => exact ⟨_, rfl, rfl⟩
  | some C =>
    by_cases h : C.rows = y.cols
    · exact ⟨C, by simp [h], h⟩
    · exact ⟨coreModulation (cosineW (2 * y.cols)) y.cols "MDCT", by simp [h], rfl⟩

/-- C8. On every call, `real_analysis` and `real_synthesis` apply a basis
matrix whose row count equals the requested subband count: the cache is
reused iff its row count is exactly `N` and rebuilt otherwise, so two
successive calls with `N1 ≠ N2` each use a matching-size matrix. -/
theorem basis_cache_row_invariant :
    (∀ (st : Option RMat) (x : NArr ℝ) (N : ℕ),
      ∃ C, (real_analysis st x N).1 = some C ∧ C.rows = N) ∧
    (∀ (st : Option RMat) (y : RMat),
      ∃ C, (real_synthesis st y).1 = some C ∧ C.rows = y.cols) ∧
    (∀ (st : Option RMat) (x1 x2 : NArr ℝ) (N1 N2 : ℕ), N1 ≠ N2 →
      ∃ C1 C2, (real_analysis st x1 N1).1 = some C1 ∧ C1.rows = N1 ∧
        (real_analysis (real_analysis st x1 N1).1 x2 N2).1 = some C2 ∧ C2.rows = N2) := by
  refine ⟨real_analysis_cache_rows, real_synthesis_cache_rows, ?_⟩
  intro st x1 x2 N1 N2 hne
  obtain ⟨C1, h1, h1r⟩ := real_analysis_cache_rows st x1 N1
  obtain ⟨C2, h2, h2r⟩ := real_analysis_cache_rows (real_analysis st x1 N1).1 x2 N2
  exact ⟨C1, C2, h1, h1r, h2, h2r⟩

/-- Concrete empty signal used to witness C8. -/
def zeroSig : NArr ℝ := ⟨0, fun _ => 0⟩

/-- Witness for C8 at two successive calls with `N1 = 1 ≠ 2 = N2` from an
empty cache. -/
theorem basis_cache_row_invariant_check :
    (1 : ℕ) ≠ 2 ∧
    (∃ C1 C2, (real_analysis none zeroSig 1).1 = some C1 ∧ C1.rows = 1 ∧
      (real_analysis (real_analysis none zeroSig 1).1 zeroSig 2).1 = some C2 ∧ C2.rows = 2) :=
  ⟨by decide, basis_cache_row_invariant.2.2 none zeroSig zeroSig 1 2 (by decide)⟩

/-- The `fl` lower-edge table of `PsychoacousticModel.CB_filters`. -/
noncomputable def CBflTable : List ℝ :=
  [80.000, 103.445, 127.023, 150.762, 174.694, 198.849,
    223.257, 247.950, 272.959, 298.317, 324.055, 350.207,
    376.805, 403.884, 431.478, 459.622, 488.353, 517.707,
    547.721, 578.434, 609.885, 642.114, 675.161, 709.071,
    743.884, 779.647, 816.404, 854.203, 893.091, 933.119,
    974.336, 1016.797, 1060.555, 1105.666, 1152.187, 1200.178,
    1249.700, 1300.816, 1353.592, 1408.094, 1464.392, 1522.559,
    1582.668, 1644.795, 1709.021, 1775.427, 1844.098, 1915.121,
    1988.587, 2064.590, 2143.227, 2224.597, 2308.806, 2395.959,
    2486.169, 2579.551, 2676.223, 2776.309, 2879.937, 2987.238,
    3098.350, 3213.415, 3332.579, 3455.993, 3583.817, 3716.212,
    3853.817, 3995.399, 4142.547, 4294.979, 4452.890, 4616.482,
    4785.962, 4961.548, 5143.463, 5331.939, 5527.217, 5729.545,
    5939.183, 6156.396, 6381.463, 6614.671, 6856.316, 7106.708,
    7366.166, 7635.020, 7913.614, 8202.302, 8501.454, 8811.450,
    9132.688, 9465.574, 9810.536, 10168.013, 10538.460, 10922.351,
    11320.175, 11732.438, 12159.670, 12602.412, 13061.229, 13536.710,
    14029.458, 14540.103, 15069.295, 15617.710, 16186.049, 16775.035,
    17385.420]

/-- The `fc` centre table of `PsychoacousticModel.CB_filters`. -/
noncomputable def CBfcTable : List ℝ :=
  [91.708, 115.216, 138.870, 162.702, 186.742, 211.019,
    235.566, 260.413, 285.593, 311.136, 337.077, 363.448,
    390.282, 417.614, 445.479, 473.912, 502.950, 532.629,
    562.988, 594.065, 625.899, 658.533, 692.006, 726.362,
    761.644, 797.898, 835.170, 873.508, 912.959, 953.576,
    995.408, 1038.511, 1082.938, 1128.746, 1175.995, 1224.744,
    1275.055, 1326.992, 1380.623, 1436.014, 1493.237, 1552.366,
    1613.474, 1676.641, 1741.946, 1809.474, 1879.310, 1951.543,
    2026.266, 2103.573, 2183.564, 2266.340, 2352.008, 2440.675,
    2532.456, 2627.468, 2725.832, 2827.672, 2933.120, 3042.309,
    3155.379, 3272.475, 3393.745, 3519.344, 3649.432, 3784.176,
    3923.748, 4068.324, 4218.090, 4373.237, 4533.963, 4700.473,
    4872.978, 5051.700, 5236.866, 5428.712, 5627.484, 5833.434,
    6046.825, 6267.931, 6497.031, 6734.420, 6980.399, 7235.284,
    7499.397, 7773.077, 8056.673, 8350.547, 8655.072, 8970.639,
    9297.648, 9636.520, 9987.683, 10351.586, 10728.695, 11119.490,
    11524.470, 11944.149, 12379.066, 12829.775, 13294.850, 13780.887,
    14282.503, 14802.338, 15341.057, 15899.345, 16477.914, 17077.504,
    17690.045]

/-- The `fu` upper-edge table of `PsychoacousticModel.CB_filters`. -/
noncomputable def CBfuTable : List ℝ :=
  [103.445, 127.023, 150.762, 174.694, 198.849, 223.257,
    247.950, 272.959, 298.317, 324.055, 350.207, 376.805,
    403.884, 431.478, 459.622, 488.353, 517.707, 547.721,
    578.434, 609.885, 642.114, 675.161, 709.071, 743.884,
    779.647, 816.404, 854.203, 893.091, 933.113, 974.336,
    1016.797, 1060.555, 1105.666, 1152.187, 1200.178, 1249.700,
    1300.816, 1353.592, 1408.094, 1464.392, 1522.559, 1582.668,
    1644.795, 1709.021, 1775.427, 1844.098, 1915.121, 1988.587,
    2064.590, 2143.227, 2224.597, 2308.806, 2395.959, 2486.169,
    2579.551, 2676.223, 2776.309, 2879.937, 2987.238, 3098.350,
    3213.415, 3332.579, 3455.993, 3583.817, 3716.212, 3853.348,
    3995.399, 4142.547, 4294.979, 4452.890, 4643.482, 4785.962,
    4961.548, 5143.463, 5331.939, 5527.217, 5729.545, 5939.183,
    6156.396, 6381.463, 6614.671, 6856.316, 7106.708, 7366.166,
    7635.020, 7913.614, 8202.302, 8501.454, 8811.450, 9132.688,
    9465.574, 9810.536, 10168.013, 10538.460, 10922.351, 11320.175,
    11732.438, 12159.670, 12602.412, 13061.229, 13536.710, 14029.458,
    14540.103, 15069.295, 15617.710, 16186.049, 16775.035, 17385.420,
    18000.000]

/-- Model of `PsychoacousticModel.hz2bark`: `6*arcsinh(f/600)`. -/
noncomputable def hz2bark (f : ℝ) : ℝ := 6 * Real.arsinh (f / 600)

/-- Model of `PsychoacousticModel.bark2hz`: `650*sinh(Brk/7)`. -/
noncomputable def bark2hz (b : ℝ) : ℝ := 650 * Real.sinh (b / 7)

/-- Model of `np.round` (half rounds to even) as an integer. -/
noncomputable def npRound (x : ℝ) : ℤ :=
  if Int.fract x = 1 / 2 then 2 * round (x / 2) else round x

/-- Model of `PsychoacousticModel.fft2bark_peaq`: bin-overlap-fraction
filters against the tabulated critical-band edges, `max(0, ...)` clamped,
filled for bins `k ≤ nfft/2`. -/
noncomputable def fft2bark_peaq (nfft fs nfilts : ℕ) : RMat :=
  let df : ℝ := (fs : ℝ) / nfft
  ⟨nfilts, nfft, fun i k =>
    if i < nfilts ∧ k ≤ nfft / 2 then
      max 0 ((min (CBfuTable.getD i 0) (((k : ℝ) + 0.5) * df)
        - max (CBflTable.getD i 0) (((k : ℝ) - 0.5) * df)) / df)
    else 0⟩

/-- Model of `PsychoacousticModel.fft2bark_rasta`: `W[i, k] = 1` iff FFT
bin `k ≤ nfft/2` falls in Bark band `i` by nearest rounding of
`binbarks/step_barks`; all other entries stay zero.  When `nfilts == 0`
the filter count is derived as `ceil(nyqbark) + 1`.  (The absolute
threshold `_LTeq` side store is not modelled; nothing here reads it.) -/
noncomputable def fft2bark_rasta (nfft fs nfilts : ℕ) (width min_freq max_freq : ℝ) : RMat :=
  let min_bark := hz2bark min_freq
  let nyqbark := hz2bark max_freq - min_bark
  let nf : ℕ := if nfilts = 0 then (⌈nyqbark⌉ + 1).toNat else nfilts
  let step_barks := nyqbark / ((nf : ℝ) - 1)
  let binbarks : ℕ → ℝ := fun k => hz2bark ((k : ℝ) * fs / nfft)
  ⟨nf, nfft, fun i k =>
    if i < nf ∧ k ≤ nfft / 2 then
      (if npRound (binbarks k / step_barks) = (i : ℤ) then 1 else 0)
    else 0⟩

/-- Model of `PsychoacousticModel.mX2Bark`: dispatch on the selector
string.  For an unknown selector the source executes the no-op
`assert('Unknown method')` and then hits `return W` with `W` unbound,
raising `UnboundLocalError`; the model returns `none` for that failure. -/
noncomputable def mX2Bark (nfft fs nfilts : ℕ) (width min_freq max_freq : ℝ)
    (type : String) : Option RMat :=
  if type = "rasta" then some (fft2bark_rasta nfft fs nfilts width min_freq max_freq)
  else if type = "peaq" then some (fft2bark_peaq nfft fs nfilts)
  else none

/-- Model of `PsychoacousticModel.bark2mX`:
`W_inv = (diag((1/sum(W[:, :nfreqs+1], 1))**0.5) @ W[:, :nfreqs+1]).T`. -/
noncomputable def bark2mX (W : RMat) (nfreqs : ℕ) : RMat :=
  ⟨nfreqs + 1, W.rows, fun k i =>
    (1 / ∑ c ∈ Finset.range (nfreqs + 1), W.val i c) ^ ((0.5 : ℝ)) * W.val i k⟩

/-- Model of the `PsychoacousticModel` instance state set up by
`__init__` (field names follow the source, minus leading underscores). -/
structure PsychoacousticModel where
  nfft : ℕ
  fs : ℕ
  nfilts : ℕ
  width : ℝ
  min_freq : ℝ
  max_freq : ℝ
  nfreqs : ℕ
  alpha : ℝ
  maxb : ℝ
  fa : ℝ
  fb : ℝ
  fbb : ℝ
  fd : ℝ
  type : String
  W : RMat
  W_inv : RMat

/-- Model of `PsychoacousticModel.__init__`.  The source assigns
`self.max_freq = maxfreq` and immediately overwrites it with
`self.max_freq = fs/2` (Python 2 integer division); the shadowed `let`
mirrors the overwritten assignment, so the `maxfreq` argument is dead.
For an unknown `type`, `mX2Bark` raises in Python; the model substitutes
an all-zero matrix there (no claim exercises that case through
`__init__`). -/
noncomputable def mkPM (N fs nfilts : ℕ) (type : String) (width minfreq maxfreq : ℝ) :
    PsychoacousticModel :=
  let max_freq : ℝ := maxfreq
  let max_freq : ℝ := ((fs / 2 : ℕ) : ℝ)
  let alpha : ℝ := 0.9
  let W := (mX2Bark N fs nfilts width minfreq max_freq type).getD ⟨0, 0, fun _ _ => 0⟩
  { nfft := N, fs := fs, nfilts := nfilts, width := width, min_freq := minfreq,
    max_freq := max_freq, nfreqs := N / 2, alpha := alpha,
    maxb := 1 / (nfilts : ℝ),
    fa := 1 / ((10 : ℝ) ^ ((14.5 : ℝ) / 20) * (10 : ℝ) ^ ((12.5 : ℝ) / 20)),
    fb := 1 / (10 : ℝ) ^ ((7.5 : ℝ) / 20),
    fbb := 1 / (10 : ℝ) ^ ((26 : ℝ) / 20),
    fd := 1 / alpha, type := type, W := W, W_inv := bark2mX W (N / 2) }

/-- Model of `PsychoacousticModel.maskingThreshold` on an `F x B`
magnitude array given as a function: Bark-project the absolute values
through `W` (using `nfreqs` or `nfreqs+1` columns by the parity of `B`),
apply the nonlinear spreading superposition with exponents `alpha` and
`1/alpha`, and project back through `W_inv`. -/
noncomputable def maskingThreshold (pm : PsychoacousticModel) (F B : ℕ)
    (mXv : ℕ → ℕ → ℝ) : RMat :=
  let cols := if B % 2 = 0 then pm.nfreqs else pm.nfreqs + 1
  let mXb : ℕ → ℕ → ℝ := fun f i => ∑ k ∈ Finset.range cols, |mXv f k| * pm.W.val i k
  let Numsubbands := pm.W.rows
  let fc := pm.maxb * (Numsubbands : ℝ)
  let mT : ℕ → ℕ → ℝ := fun f n =>
    ((∑ m ∈ Finset.range n, (mXb f m * pm.fa * pm.fb ^ (((n : ℝ) - m) * fc)) ^ pm.alpha)
      + ∑ m ∈ Finset.Ico (n + 1) Numsubbands,
          (mXb f m * pm.fa * pm.fbb ^ (((m : ℝ) - n) * fc)) ^ pm.alpha) ^ pm.fd
  ⟨F, cols, fun f k =>
    ∑ i ∈ Finset.range Numsubbands, mT f i * pm.W_inv.val k i⟩

/-- Entries of both Bark mapping variants (and the zero fallback) are
nonnegative. -/
theorem mkPM_W_nonneg (N fs nfilts : ℕ) (type : String) (width minfreq maxfreq : ℝ) :
    ∀ i k, 0 ≤ (mkPM N fs nfilts type width minfreq maxfreq).W.val i k := by
  intro i k
  show 0 ≤ ((mX2Bark N fs nfilts width minfreq ((fs / 2 : ℕ) : ℝ) type).getD
      ⟨0, 0, fun _ _ => 0⟩).val i k
  unfold mX2Bark
  split_ifs with h1 h2
  · simp only [Option.getD_some]
    unfold fft2bark_rasta
    simp only [RMat_val_mk]
    split_ifs <;> norm_num
  · simp only [Option.getD_some]
    unfold fft2bark_peaq
    simp only [RMat_val_mk]
    split_ifs
    · exact le_max_left 0 _
    · exact le_refl 0
  · simp only [Option.getD_none, RMat_val_mk]
    exact le_refl 0

/-- Entries of the pseudo-inverse mapping are nonnegative whenever the
forward mapping is. -/
theorem bark2mX_nonneg (W : RMat) (nfreqs : ℕ) (hW : ∀ i k, 0 ≤ W.val i k) :
    ∀ k i, 0 ≤ (bark2mX W nfreqs).val k i := by
  intro k i
  simp only [bark2mX, RMat_val_mk]
  apply mul_nonneg _ (hW i k)
  apply Real.rpow_nonneg
  apply one_div_nonneg.mpr
  exact Finset.sum_nonneg (fun c _ => hW i c)

theorem mkPM_Winv_nonneg (N fs nfilts : ℕ) (type : String) (width minfreq maxfreq : ℝ) :
    ∀ k i, 0 ≤ (mkPM N fs nfilts type width minfreq maxfreq).W_inv.val k i := by
  intro k i
  show 0 ≤ (bark2mX (mkPM N fs nfilts type width minfreq maxfreq).W (N / 2)).val k i
  exact bark2mX_nonneg _ _ (mkPM_W_nonneg N fs nfilts type width minfreq maxfreq) k i

/-- The masking threshold of an all-zero magnitude array is all zero. -/
theorem maskingThreshold_zero (pm : PsychoacousticModel) (F B : ℕ)
    (ha : pm.alpha ≠ 0) (hd : pm.fd ≠ 0) :
    ∀ f k, (maskingThreshold pm F B (fun _ _ => 0)).val f k = 0 := by
  intro f k
  simp only [maskingThreshold, RMat_val_mk]
  simp [Real.zero_rpow ha, Real.zero_rpow hd]

/-- Monotonicity of the masking threshold in the entrywise absolute input
magnitudes, for nonnegative mapping matrices and positive spreading
parameters. -/
theorem maskingThreshold_mono (pm : PsychoacousticModel) (F B : ℕ)
    (hW : ∀ i k, 0 ≤ pm.W.val i k) (hWinv : ∀ k i, 0 ≤ pm.W_inv.val k i)
    (hfa : 0 ≤ pm.fa) (hfb : 0 < pm.fb) (hfbb : 0 < pm.fbb)
    (hal : 0 ≤ pm.alpha) (hfd : 0 ≤ pm.fd)
    (mX mX' : ℕ → ℕ → ℝ) (habs : ∀ f k, |mX f k| ≤ |mX' f k|) :
    ∀ f k, (maskingThreshold pm F B mX).val f k ≤ (maskingThreshold pm F B mX').val f k := by
  intro f k
  simp only [maskingThreshold, RMat_val_mk]
  have hb_nn : ∀ (cols : ℕ) (i : ℕ),
      0 ≤ ∑ kk ∈ Finset.range cols, |mX f kk| * pm.W.val i kk :=
    fun cols i => Finset.sum_nonneg (fun kk _ => mul_nonneg (abs_nonneg _) (hW i kk))
  have hb_mono : ∀ (cols : ℕ) (i : ℕ),
      (∑ kk ∈ Finset.range cols, |mX f kk| * pm.W.val i kk)
        ≤ ∑ kk ∈ Finset.range cols, |mX' f kk| * pm.W.val i kk :=
    fun cols i => Finset.sum_le_sum
      (fun kk _ => mul_le_mul_of_nonneg_right (habs f kk) (hW i kk))
  apply Finset.sum_le_sum
  intro i _
  apply mul_le_mul_of_nonneg_right _ (hWinv k i)
  apply Real.rpow_le_rpow _ _ hfd
  · apply add_nonneg
    · refine Finset.sum_nonneg (fun m _ => ?_)
      apply Real.rpow_nonneg
      exact mul_nonneg (mul_nonneg (hb_nn _ m) hfa)
        (le_of_lt (Real.rpow_pos_of_pos hfb _))
    · refine Finset.sum_nonneg (fun m _ => ?_)
      apply Real.rpow_nonneg
      exact mul_nonneg (mul_nonneg (hb_nn _ m) hfa)
        (le_of_lt (Real.rpow_pos_of_pos hfbb _))
  · apply add_le_add
    · refine Finset.sum_le_sum (fun m _ => ?_)
      apply Real.rpow_le_rpow _ _ hal
      · exact mul_nonneg (mul_nonneg (hb_nn _ m) hfa)
          (le_of_lt (Real.rpow_pos_of_pos hfb _))
      · exact mul_le_mul_of_nonneg_right
          (mul_le_mul_of_nonneg_right (hb_mono _ m) hfa)
          (le_of_lt (Real.rpow_pos_of_pos hfb _))
    · refine Finset.sum_le_sum (fun m _ => ?_)
      apply Real.rpow_le_rpow _ _ hal
      · exact mul_nonneg (mul_nonneg (hb_nn _ m) hfa)
          (le_of_lt (Real.rpow_pos_of_pos hfbb _))
      · exact mul_le_mul_of_nonneg_right
          (mul_le_mul_of_nonneg_right (hb_mono _ m) hfa)
          (le_of_lt (Real.rpow_pos_of_pos hfbb _))

/-- C9. `maskingThreshold` maps the all-zero magnitude spectrogram to the
all-zero threshold, and it is monotone: increasing any single
(nonnegative) input magnitude entry does not decrease the masking
threshold of any band in any frame. -/
theorem maskingThreshold_zero_and_monotone (N fs nfilts : ℕ) (type : String)
    (width minfreq maxfreq : ℝ) (F B : ℕ) (mX mX' : ℕ → ℕ → ℝ) (f0 k0 : ℕ)
    (h0 : 0 ≤ mX f0 k0) (h1 : mX f0 k0 ≤ mX' f0 k0)
    (h2 : ∀ f k, ¬(f = f0 ∧ k = k0) → mX' f k = mX f k) :
    (∀ f k, (maskingThreshold (mkPM N fs nfilts type width minfreq maxfreq) F B
        (fun _ _ => 0)).val f k = 0) ∧
    (∀ f k, (maskingThreshold (mkPM N fs nfilts type width minfreq maxfreq) F B mX).val f k
      ≤ (maskingThreshold (mkPM N fs nfilts type width minfreq maxfreq) F B mX').val f k) := by
  have halpha : (mkPM N fs nfilts type width minfreq maxfreq).alpha = 0.9 := rfl
  have hfdv : (mkPM N fs nfilts type width minfreq maxfreq).fd = 1 / 0.9 := rfl
  have hfav : (mkPM N fs nfilts type width minfreq maxfreq).fa
      = 1 / ((10 : ℝ) ^ ((14.5 : ℝ) / 20) * (10 : ℝ) ^ ((12.5 : ℝ) / 20)) := rfl
  have hfbv : (mkPM N fs nfilts type width minfreq maxfreq).fb
      = 1 / (10 : ℝ) ^ ((7.5 : ℝ) / 20) := rfl
  have hfbbv : (mkPM N fs nfilts type width minfreq maxfreq).fbb
      = 1 / (10 : ℝ) ^ ((26 : ℝ) / 20) := rfl
  constructor
  · exact maskingThreshold_zero _ F B (by rw [halpha]; norm_num) (by rw [hfdv]; norm_num)
  · apply maskingThreshold_mono
    · exact mkPM_W_nonneg N fs nfilts type width minfreq maxfreq
    · exact mkPM_Winv_nonneg N fs nfilts type width minfreq maxfreq
    · rw [hfav]
      positivity
    · rw [hfbv]
      positivity
    · rw [hfbbv]
      positivity
    · rw [halpha]
      norm_num
    · rw [hfdv]
      norm_num
    · intro f k
      by_cases hk : f = f0 ∧ k = k0
      · obtain ⟨hf, hkk⟩ := hk
        subst hf
        subst hkk
        rw [abs_of_nonneg h0, abs_of_nonneg (le_trans h0 h1)]
        exact h1
      · rw [h2 f k hk]

/-- Witness for C9: zero spectrogram and a single unit bump at entry
`(0,0)` with a small rasta model. -/
theorem maskingThreshold_zero_and_monotone_check :
    ((0 : ℝ) ≤ (0 : ℝ) ∧ (0 : ℝ) ≤ (1 : ℝ)) ∧
    (maskingThreshold (mkPM 2 4 1 "rasta" 1 0 2) 1 1 (fun _ _ => 0)).val 0 0 = 0 ∧
    (maskingThreshold (mkPM 2 4 1 "rasta" 1 0 2) 1 1 (fun _ _ => 0)).val 0 0
      ≤ (maskingThreshold (mkPM 2 4 1 "rasta" 1 0 2) 1 1
          (fun f k => if f = 0 ∧ k = 0 then 1 else 0)).val 0 0 := by
  have h := maskingThreshold_zero_and_monotone 2 4 1 "rasta" 1 0 2 1 1
    (fun _ _ => 0) (fun f k => if f = 0 ∧ k = 0 then 1 else 0) 0 0 le_rfl
    (by norm_num) (fun f k hk => if_neg hk)
  exact ⟨⟨le_rfl, by norm_num⟩, h.1 0 0, h.2 0 0⟩

/-- C10. Construction overwrites the stored maximum frequency with `fs/2`
immediately after assigning the `maxfreq` argument, so the constructed
model — the Bark matrix `W`, its pseudo-inverse, and every derived
threshold — never depends on the caller-supplied `maxfreq`. -/
theorem mkPM_ignores_maxfreq (N fs nfilts : ℕ) (type : String) (width minfreq m1 m2 : ℝ) :
    mkPM N fs nfilts type width minfreq m1 = mkPM N fs nfilts type width minfreq m2 ∧
    (mkPM N fs nfilts type width minfreq m1).max_freq = ((fs / 2 : ℕ) : ℝ) ∧
    (mkPM N fs nfilts type width minfreq m1).W = (mkPM N fs nfilts type width minfreq m2).W ∧
    (mkPM N fs nfilts type width minfreq m1).W_inv
      = (mkPM N fs nfilts type width minfreq m2).W_inv ∧
    ∀ (F B : ℕ) (mXv : ℕ → ℕ → ℝ),
      maskingThreshold (mkPM N fs nfilts type width minfreq m1) F B mXv
        = maskingThreshold (mkPM N fs nfilts type width minfreq m2) F B mXv :=
  ⟨rfl, rfl, rfl, rfl, fun _ _ _ => rfl⟩

end TFD
